import Mathlib

/-!
# rtdsr command console: history ring, tokenizer and dispatcher

A shallow embedding of `src/rtdsr/command.c`.

Conventions of the embedding.

* A byte is a `Nat`; a `char *` is the list of the bytes found from the pointer up to the end of
  the object it points into.  The C string at a pointer is the run of bytes before the first NUL
  (`cstring`); the end of the list reads as a terminator.
* `cmdhistory[MAX_HIST][MAX_COMMANDLINE_LENGTH]` is a list of rows.  The rows are contiguous in
  memory, so reading a string through `cmdhistory[ptr]` goes on into the following rows when row
  `ptr` holds no NUL (`slotMem`).
* The three history counters are C `int`s that the code keeps within `0..MAX_HIST`; they are
  `Nat`s here.
* The constants of `command.h` and `errno.h`, which are not in the source tree, are the fields of
  `Config`.
-/

namespace Rtdsr

/-- Constants that `command.c` takes from `command.h` and `errno.h`. -/
structure Config where
  MAX_COMMANDLINE_LENGTH : Nat
  MAX_ARGS : Nat
  COMMAND_MAGIC : Nat
  EINVAL : Nat
  ECOMMAND : Nat
  EAMBIGCMD : Nat
  EMAGIC : Nat
deriving DecidableEq

/-- The `#define MAX_HIST 32` of `command.c`. -/
abbrev MAX_HIST : Nat := 32

/-- The C string found at a pointer: the bytes before the first NUL. -/
def cstring (mem : List Nat) : List Nat :=
  mem.takeWhile (fun b => b ≠ 0)

/-- Modelled from the spec: `_strlen` of `util.h` is not in the source tree; it is the C library
`strlen`, the number of bytes before the first NUL. -/
def _strlen : List Nat → Nat
  | [] => 0
  | b :: rest => if b = 0 then 0 else _strlen rest + 1

/-- The `n` bytes that `strncpy` writes: the bytes of `src` up to its terminator, then NULs. -/
def strncpyBytes : List Nat → Nat → List Nat
  | _, 0 => []
  | [], n + 1 => 0 :: strncpyBytes [] n
  | b :: rest, n + 1 => if b = 0 then 0 :: strncpyBytes [] n else b :: strncpyBytes rest n

/-- Modelled from the spec: `_strncpy` of `util.h` is not in the source tree; it is the C library
`strncpy`: exactly `n` bytes of `dest` are written (no terminator is added when `src` has `n` or
more bytes before its NUL), the bytes of `dest` after the first `n` are kept. -/
def _strncpy (dest src : List Nat) (n : Nat) : List Nat :=
  strncpyBytes src n ++ dest.drop n

/-- Modelled from the spec: `_strncmp` of `util.h` is not in the source tree; it is the C library
`strncmp`: the difference of the first two bytes that differ among the first `n`, `0` when there
is none before a common NUL. -/
def _strncmp : List Nat → List Nat → Nat → Int
  | _, _, 0 => 0
  | s1, s2, n + 1 =>
    if s1.headD 0 ≠ s2.headD 0 then (s1.headD 0 : Int) - (s2.headD 0 : Int)
    else if s1.headD 0 = 0 then 0
    else _strncmp s1.tail s2.tail n

/-! ## History ring -/

/-- The static history variables of `command.c`. -/
structure History where
  cmdhist_entries : Nat
  cmdhist_read : Nat
  cmdhist_write : Nat
  cmdhistory : List (List Nat)
deriving DecidableEq

/-- The memory found from `&cmdhistory[ptr][0]` on. -/
def slotMem (h : List (List Nat)) (ptr : Nat) : List Nat :=
  (h.drop ptr).flatten

/-- The byte `cmdhistory[ptr][0]`. -/
def slotFirst (h : List (List Nat)) (ptr : Nat) : Nat :=
  (slotMem h ptr).headD 0

/-- The line read back through the pointer `cmdhistory[ptr]`. -/
def slotString (h : List (List Nat)) (ptr : Nat) : List Nat :=
  cstring (slotMem h ptr)

/-- Every row of `cmdhistory` has `MAX_COMMANDLINE_LENGTH` bytes. -/
def RowsOK (K : Config) (rows : List (List Nat)) : Prop :=
  ∀ row ∈ rows, row.length = K.MAX_COMMANDLINE_LENGTH

/-- The ranges of the data model: `MAX_HIST` rows of `MAX_COMMANDLINE_LENGTH` bytes, `entries` in
`0..N`, both cursors in `0..N-1`. -/
def RingWF (K : Config) (s : History) : Prop :=
  s.cmdhistory.length = MAX_HIST ∧ RowsOK K s.cmdhistory ∧
  s.cmdhist_entries ≤ MAX_HIST ∧ s.cmdhist_read < MAX_HIST ∧ s.cmdhist_write < MAX_HIST

instance (K : Config) (rows : List (List Nat)) : Decidable (RowsOK K rows) :=
  inferInstanceAs (Decidable (∀ row ∈ rows, row.length = K.MAX_COMMANDLINE_LENGTH))

instance (K : Config) (s : History) : Decidable (RingWF K s) :=
  inferInstanceAs (Decidable (s.cmdhistory.length = MAX_HIST ∧ RowsOK K s.cmdhistory ∧
    s.cmdhist_entries ≤ MAX_HIST ∧ s.cmdhist_read < MAX_HIST ∧ s.cmdhist_write < MAX_HIST))

/-- The statically allocated history before any code runs: all bytes and counters zero. -/
def zeroHistory (K : Config) : History :=
  { cmdhist_entries := 0, cmdhist_read := 0, cmdhist_write := 0,
    cmdhistory := List.replicate MAX_HIST (List.replicate K.MAX_COMMANDLINE_LENGTH 0) }

/-- The loop `while (i--) { cmdhistory[i][0]=0; }` of `init_commands`, entered with the given
value of `i`. -/
def clearLoop : Nat → List (List Nat) → List (List Nat)
  | 0, h => h
  | i + 1, h => clearLoop i (h.set i ((h.getD i []).set 0 0))

/-- The history part of `init_commands`: the three counters are zeroed and the clearing loop runs
from `i = MAX_HIST - 1`. -/
def init_commands (s : History) : History :=
  { cmdhist_entries := 0, cmdhist_read := 0, cmdhist_write := 0,
    cmdhistory := clearLoop (MAX_HIST - 1) s.cmdhistory }

/-- `cmdhist_push`; `cmd = none` is the NULL pointer. -/
def cmdhist_push (K : Config) (cmd : Option (List Nat)) (s : History) : Int × History :=
  match cmd with
  | none => (-(K.EINVAL : Int), s)
  | some c =>
    if _strlen c > K.MAX_COMMANDLINE_LENGTH then (-(K.EINVAL : Int), s)
    else if _strlen c = 0 then (0, s)
    else
      (0, { cmdhistory :=
              s.cmdhistory.set s.cmdhist_write
                (_strncpy (s.cmdhistory.getD s.cmdhist_write []) c K.MAX_COMMANDLINE_LENGTH),
            cmdhist_write := (s.cmdhist_write + 1) % MAX_HIST,
            cmdhist_entries :=
              if s.cmdhist_entries < MAX_HIST then s.cmdhist_entries + 1 else s.cmdhist_entries,
            cmdhist_read := s.cmdhist_read })

/-- `cmdhist_reset`. -/
def cmdhist_reset (s : History) : Int × History :=
  (0, { s with cmdhist_read := s.cmdhist_write })

/-- What a navigation call leaves behind: its return value, the `char *` that its argument points
to (`none` when the argument is NULL; `some none` a NULL `char *`, `some (some p)` the pointer
`cmdhistory[p]`), and the history. -/
structure NavResult where
  ret : Int
  cmd : Option (Option Nat)
  hist : History
deriving DecidableEq

/-- `cmdhist_next`. -/
def cmdhist_next (K : Config) (cmd : Option (Option Nat)) (s : History) : NavResult :=
  if s.cmdhist_entries = 0 then ⟨-(K.EINVAL : Int), cmd, s⟩
  else if cmd = none then ⟨-(K.EINVAL : Int), cmd, s⟩
  else if s.cmdhist_read = 0 then
    if s.cmdhist_entries ≠ MAX_HIST then ⟨-(K.EINVAL : Int), cmd, s⟩
    else if slotFirst s.cmdhistory (MAX_HIST - 1) = 0 then ⟨-(K.EINVAL : Int), cmd, s⟩
    else ⟨0, some (some (MAX_HIST - 1)), { s with cmdhist_read := MAX_HIST - 1 }⟩
  else
    if slotFirst s.cmdhistory (s.cmdhist_read - 1) = 0 then ⟨-(K.EINVAL : Int), cmd, s⟩
    else ⟨0, some (some (s.cmdhist_read - 1)), { s with cmdhist_read := s.cmdhist_read - 1 }⟩

/-- `cmdhist_prev`. -/
def cmdhist_prev (K : Config) (cmd : Option (Option Nat)) (s : History) : NavResult :=
  if cmd = none then ⟨-(K.EINVAL : Int), cmd, s⟩
  else if s.cmdhist_entries = 0 then ⟨-(K.EINVAL : Int), cmd, s⟩
  else if (s.cmdhist_read + 1) % MAX_HIST = s.cmdhist_write then ⟨-(K.EINVAL : Int), cmd, s⟩
  else if slotFirst s.cmdhistory ((s.cmdhist_read + 1) % MAX_HIST) = 0 then
    ⟨-(K.EINVAL : Int), cmd, s⟩
  else ⟨0, some (some ((s.cmdhist_read + 1) % MAX_HIST)),
        { s with cmdhist_read := (s.cmdhist_read + 1) % MAX_HIST }⟩

/-- The history after the lines of a list have been passed to `cmdhist_push` in order. -/
def pushAll (K : Config) (lines : List (List Nat)) (s : History) : History :=
  lines.foldl (fun t l => (cmdhist_push K (some l) t).2) s

/-- The line a navigation call hands back: the string at `*cmd`, when `*cmd` is not NULL. -/
def recalled (r : NavResult) : Option (List Nat) :=
  match r.cmd with
  | some (some p) => some (slotString r.hist.cmdhistory p)
  | _ => none

/-- The outcome of `n` successive calls `cmdhist_next(&cmd)`, each on a `cmd` that is NULL before
the call as in `get_command`: the return value and recalled line of every call, and the history
after the last one. -/
def nextN (K : Config) : Nat → History → List (Int × Option (List Nat)) × History
  | 0, s => ([], s)
  | n + 1, s =>
    let r := cmdhist_next K (some none) s
    let rest := nextN K n r.hist
    ((r.ret, recalled r) :: rest.1, rest.2)

/-! ## Tokenizer and dispatcher -/

/-- The `#define STATE_WHITESPACE (0)` of `command.c`. -/
abbrev STATE_WHITESPACE : Nat := 0

/-- The `#define STATE_WORD (1)` of `command.c`. -/
abbrev STATE_WORD : Nat := 1

/-- What `parse_args` leaves behind: the command line after the in-place edits, `*argc`, and the
entries `argv[0..argc-1]`, each the offset into the command line that the pointer stands at. -/
structure ArgResult where
  cmdline : List Nat
  argc : Nat
  argv : List Nat
deriving DecidableEq

/-- The first loop of `parse_args`: every tab before the terminator becomes a space. -/
def tabsToSpaces : List Nat → List Nat
  | [] => []
  | b :: rest => if b = 0 then b :: rest else (if b = 9 then 32 else b) :: tabsToSpaces rest

/-- The second loop of `parse_args`.  `done` holds the bytes before `c` as the loop has left
them, the list argument the bytes from `c` on; `i` is the length of `argv`.  Storing into
`argv[i]` with `i` not below `maxArgs` is out of the bounds of the caller's array: `none`. -/
def wordLoop (maxArgs : Nat) : List Nat → List Nat → Nat → List Nat → Option ArgResult
  | done, [], _, argv => some ⟨done, argv.length, argv⟩
  | done, b :: rest, state, argv =>
    if b = 0 then some ⟨done ++ b :: rest, argv.length, argv⟩
    else if state = STATE_WHITESPACE then
      if b ≠ 32 then
        if argv.length < maxArgs then
          wordLoop maxArgs (done ++ [b]) rest STATE_WORD (argv ++ [done.length])
        else none
      else wordLoop maxArgs (done ++ [b]) rest state argv
    else
      if b = 32 then wordLoop maxArgs (done ++ [0]) rest STATE_WHITESPACE argv
      else wordLoop maxArgs (done ++ [b]) rest state argv

/-- `parse_args`, for a caller whose `argv` array has `MAX_ARGS` entries. -/
def parse_args (K : Config) (cmdline : List Nat) : Option ArgResult :=
  if _strlen cmdline = 0 then some ⟨cmdline, 0, []⟩
  else wordLoop K.MAX_ARGS [] (tabsToSpaces cmdline) STATE_WHITESPACE []

/-- The strings `argv[0], ..., argv[argc-1]` after `parse_args`. -/
def argStrings (a : ArgResult) : List (List Nat) :=
  a.argv.map (fun off => cstring (a.cmdline.drop off))

/-- A command descriptor, the `commandlist_t` of `command.h`.  The `next` pointers that
`init_commands` sets are the order of the list of descriptors.  The callback is handed `argc`
and the strings that `argv[0..argc-1]` point to. -/
structure commandlist_t where
  magic : Nat
  name : List Nat
  callback : Nat → List (List Nat) → Int

/-- The loop of `get_num_command_matches`, entered with the given `num_matches`. -/
def matchLoop (K : Config) (cmdline : List Nat) (len : Nat) : List commandlist_t → Int → Int
  | [], num_matches => num_matches
  | cmd :: next, num_matches =>
    if cmd.magic ≠ K.COMMAND_MAGIC then -(K.EMAGIC : Int)
    else if _strncmp cmd.name cmdline len = 0 then matchLoop K cmdline len next (num_matches + 1)
    else matchLoop K cmdline len next num_matches

/-- `get_num_command_matches`. -/
def get_num_command_matches (K : Config) (commands : List commandlist_t)
    (cmdline : List Nat) : Int :=
  matchLoop K cmdline (_strlen cmdline) commands 0

/-- A handler invocation: the name of the descriptor whose callback ran, and the `argc` and
`argv` strings it was called with. -/
structure Call where
  name : List Nat
  argc : Nat
  argv : List (List Nat)
deriving DecidableEq

/-- What `parse_command` does: the value it returns and the handler invocations it made. -/
structure Outcome where
  ret : Int
  calls : List Call
deriving DecidableEq

/-- The last loop of `parse_command`. -/
def callLoop (K : Config) (a : ArgResult) (len : Nat) : List commandlist_t → Outcome
  | [] => ⟨-(K.ECOMMAND : Int), []⟩
  | cmd :: next =>
    if cmd.magic ≠ K.COMMAND_MAGIC then ⟨-(K.EMAGIC : Int), []⟩
    else if _strncmp cmd.name (a.cmdline.drop (a.argv.getD 0 0)) len = 0 then
      ⟨cmd.callback a.argc (argStrings a), [⟨cmd.name, a.argc, argStrings a⟩]⟩
    else callLoop K a len next

/-- `parse_command`; `none` when `parse_args` stores past the end of `argv`. -/
def parse_command (K : Config) (commands : List commandlist_t)
    (cmdline : List Nat) : Option Outcome :=
  match parse_args K cmdline with
  | none => none
  | some a =>
    if a.argc = 0 then some ⟨0, []⟩
    else
      let num_commands := get_num_command_matches K commands (a.cmdline.drop (a.argv.getD 0 0))
      if num_commands < 0 then some ⟨num_commands, []⟩
      else if num_commands = 0 then some ⟨-(K.ECOMMAND : Int), []⟩
      else if num_commands > 1 then some ⟨-(K.EAMBIGCMD : Int), []⟩
      else some (callLoop K a (_strlen (a.cmdline.drop (a.argv.getD 0 0))) commands)

/-! ## Line editor -/

/-- The key codes that `command.c` takes from `command.h`: `ESCAPE_CHARACTER`,
`ESCAPE_SEQUENCE`, `KEY_UP` and `KEY_DOWN`. -/
structure KeyCodes where
  ESCAPE_CHARACTER : Nat
  ESCAPE_SEQUENCE : Nat
  KEY_UP : Nat
  KEY_DOWN : Nat
deriving DecidableEq

/-- The variables of `get_command` while its loop runs: the memory found at `command`, `i`,
`numRead`, `escape_start`, the bytes written to the console so far, and the history.  `i` is only
decremented under `i > 0` and is a `Nat`; `numRead` is an `Int`. -/
structure Editor where
  command : List Nat
  i : Nat
  numRead : Int
  escape_start : Nat
  out : List Nat
  hist : History
deriving DecidableEq

/-- The byte that `command[i++] = c` and `_putchar(c)` take from the `int c`. -/
def byteOf (c : Int) : Nat :=
  (c % 256).toNat

/-- The bytes printed by `while (numRead--) { printf("\b \b"); }`: one erase sequence for each
unit of `numRead`, counted modulo `2^32` as the decrement of a 32-bit `int` goes. -/
def eraseLine (numRead : Int) : List Nat :=
  (List.replicate (numRead % 4294967296).toNat [8, 32, 8]).flatten

/-- The part that the `KEY_UP` and `KEY_DOWN` cases of `get_command` share, after the history call
has returned `r`: `continue` when it failed; else the line is erased, the recalled string is
printed, `i` and `numRead` become its length and `MAX_COMMANDLINE_LENGTH` bytes are copied to
`command`. -/
def recallStep (K : Config) (st : Editor) (r : NavResult) : Editor :=
  if r.ret ≠ 0 then { st with escape_start := 0, hist := r.hist }
  else
    let cmd : List Nat :=
      match r.cmd with
      | some (some p) => slotMem r.hist.cmdhistory p
      | _ => []
    { command := _strncpy st.command cmd K.MAX_COMMANDLINE_LENGTH,
      i := _strlen cmd,
      numRead := (_strlen cmd : Int),
      escape_start := 0,
      out := st.out ++ eraseLine st.numRead ++ cstring cmd,
      hist := r.hist }

/-- One pass through the body of the loop of `get_command` with the value `c` that `_getchar`
returned.  The first component is the value returned when the pass leaves `get_command`, `none`
when the loop goes on. -/
def editorStep (K : Config) (keys : KeyCodes) (st : Editor) (c : Int) : Option Int × Editor :=
  if c < 0 then
    (some c, { st with command := st.command.set st.i 0, i := st.i + 1, out := st.out ++ [10] })
  else if c = (keys.ESCAPE_CHARACTER : Int) then
    (none, { st with escape_start := 1 })
  else if c = (keys.ESCAPE_SEQUENCE : Int) ∧ st.escape_start = 1 then
    (none, { st with escape_start := 2 })
  else if c = 13 ∨ c = 10 then
    (some st.numRead,
      { command := st.command.set st.i 0, i := st.i + 1, numRead := st.numRead,
        escape_start := 0, out := st.out ++ [10],
        hist := (cmdhist_push K (some (st.command.set st.i 0)) st.hist).2 })
  else if c = 8 then
    if st.i > 0 then
      (none, { st with escape_start := 0, i := st.i - 1, numRead := st.numRead - 1,
                       out := st.out ++ [8, 32, 8] })
    else (none, { st with escape_start := 0 })
  else if st.escape_start = 2 then
    if c = (keys.KEY_UP : Int) then
      (none, recallStep K st (cmdhist_next K (some none) st.hist))
    else if c = (keys.KEY_DOWN : Int) then
      (none, recallStep K st (cmdhist_prev K (some none) st.hist))
    else (none, { st with escape_start := 0 })
  else
    (none, { st with escape_start := 0, command := st.command.set st.i (byteOf c),
                     i := st.i + 1, numRead := st.numRead + 1, out := st.out ++ [byteOf c] })

/-- The end of `get_command` after its loop: `cmdhist_push(command); return(numRead);`. -/
def editorFinish (K : Config) (st : Editor) : Option Int × Editor :=
  (some st.numRead, { st with hist := (cmdhist_push K (some st.command) st.hist).2 })

/-- The loop of `get_command` on the values that the successive calls of `_getchar` return.  The
first component is the value returned, `none` when the values run out while the loop still asks
for one. -/
def editorLoop (K : Config) (keys : KeyCodes) (maxRead : Int) :
    Editor → List Int → Option Int × Editor
  | st, [] => if st.numRead < maxRead then (none, st) else editorFinish K st
  | st, c :: rest =>
    if st.numRead < maxRead then
      match editorStep K keys st c with
      | (some r, st1) => (some r, st1)
      | (none, st1) => editorLoop K keys maxRead st1 rest
    else editorFinish K st

/-- The state in which `get_command` enters its loop. -/
def editorStart (command : List Nat) (hist : History) : Editor :=
  { command := command, i := 0, numRead := 0, escape_start := 0, out := [],
    hist := (cmdhist_reset hist).2 }

/-- `get_command` on the memory `command`, with the values of `_getchar` and the history. -/
def get_command (K : Config) (keys : KeyCodes) (command : List Nat) (len : Int)
    (input : List Int) (hist : History) : Option Int × Editor :=
  editorLoop K keys (len - 1) (editorStart command hist) input

/-- A call on the history, as a value. -/
inductive HistOp where
  | push (cmd : Option (List Nat))
  | reset
  | next (cmd : Option (Option Nat))
  | prev (cmd : Option (Option Nat))
deriving DecidableEq

/-- The history after one call. -/
def applyOp (K : Config) (s : History) : HistOp → History
  | .push cmd => (cmdhist_push K cmd s).2
  | .reset => (cmdhist_reset s).2
  | .next cmd => (cmdhist_next K cmd s).hist
  | .prev cmd => (cmdhist_prev K cmd s).hist

/-- The history after a sequence of calls. -/
def runOps (K : Config) (ops : List HistOp) (s : History) : History :=
  ops.foldl (applyOp K) s

/-! ## Notions of the specification -/

/-- The strings read at the offsets `offs` of the memory `buf`. -/
def readAll (buf : List Nat) (offs : List Nat) : List (List Nat) :=
  offs.map (fun off => cstring (buf.drop off))

/-- The pieces of a line between its spaces, empty pieces included. -/
def spacePieces (l : List Nat) : List (List Nat) :=
  l.splitOnP (fun b => b = 32)

/-- The words of a line as the specification describes them: the maximal runs of bytes that are
neither space nor tab. -/
def wordsOf (line : List Nat) : List (List Nat) :=
  (line.splitOnP (fun b => b = 32 || b = 9)).filter (fun w => w ≠ [])

/-- Whether a registered name has the typed word as a literal leading substring. -/
def nameMatches (p : List Nat) (cmd : commandlist_t) : Bool :=
  p.isPrefixOf (cstring cmd.name)

/-- The row of `cmdhistory` that holds a line copied by `cmdhist_push`, when the line leaves room
for padding: the line, then NULs up to the row length. -/
def storedRow (K : Config) (l : List Nat) : List Nat :=
  l ++ List.replicate (K.MAX_COMMANDLINE_LENGTH - l.length) 0

/-- A line that `cmdhist_push` can keep with its terminator: not empty, without NUL byte, shorter
than a row of `cmdhistory`. -/
def FitsSlot (K : Config) (l : List Nat) : Prop :=
  l ≠ [] ∧ (∀ b ∈ l, b ≠ 0) ∧ l.length < K.MAX_COMMANDLINE_LENGTH

instance (K : Config) (l : List Nat) : Decidable (FitsSlot K l) :=
  inferInstanceAs (Decidable (l ≠ [] ∧ (∀ b ∈ l, b ≠ 0) ∧ l.length < K.MAX_COMMANDLINE_LENGTH))

/-- Sample history lines: the one-byte lines `A`, `B`, ... -/
def sampleLines (n : Nat) : List (List Nat) :=
  (List.range n).map (fun j => [65 + j])

/-- What a navigation call that took the history `s` to the result `r` may have done: `entries`,
the write cursor and the rows are as before; a return of `-EINVAL` leaves the read cursor as it
was; a return of 0 hands back a pointer to a row, the read cursor is the index of that row, and
the line read through the pointer is not empty. -/
def NavFrame (K : Config) (s : History) (r : NavResult) : Prop :=
  r.hist.cmdhist_entries = s.cmdhist_entries ∧ r.hist.cmdhist_write = s.cmdhist_write ∧
  r.hist.cmdhistory = s.cmdhistory ∧
  (r.ret = -(K.EINVAL : Int) → r.hist.cmdhist_read = s.cmdhist_read) ∧
  (r.ret = 0 → ∃ p, r.cmd = some (some p) ∧ r.hist.cmdhist_read = p ∧
    recalled r = some (slotString s.cmdhistory p) ∧ slotString s.cmdhistory p ≠ [])

/-- The ranges of the history counters: `entries` in `0..N`, both cursors in `0..N-1`, and the
write cursor equal to `entries` while the ring is not full. -/
def RingInv (s : History) : Prop :=
  s.cmdhist_entries ≤ MAX_HIST ∧ s.cmdhist_write < MAX_HIST ∧ s.cmdhist_read < MAX_HIST ∧
  (s.cmdhist_entries < MAX_HIST → s.cmdhist_write = s.cmdhist_entries)

/-- The memory of `cmdhistory` as declared: `MAX_HIST` rows of `MAX_COMMANDLINE_LENGTH`
bytes. -/
def Shape (K : Config) (s : History) : Prop :=
  s.cmdhistory.length = MAX_HIST ∧ RowsOK K s.cmdhistory

/-- The line that a sequence of typed bytes leaves: a backspace removes the last byte if there
is one, any other byte is appended. -/
def editFrom (acc : List Nat) (bs : List Nat) : List Nat :=
  bs.foldl (fun l b => if b = 8 then l.dropLast else l ++ [b]) acc

/-- The line that a sequence of typed bytes leaves, from the empty line. -/
def editLine (bs : List Nat) : List Nat :=
  editFrom [] bs

/-- An ordinary byte for the editor: a byte that is not NUL, the escape marker, carriage return,
line feed or backspace. -/
def Ordinary (keys : KeyCodes) (b : Nat) : Prop :=
  b < 256 ∧ b ≠ 0 ∧ b ≠ keys.ESCAPE_CHARACTER ∧ b ≠ 13 ∧ b ≠ 10 ∧ b ≠ 8

instance (keys : KeyCodes) (b : Nat) : Decidable (Ordinary keys b) :=
  inferInstanceAs (Decidable (b < 256 ∧ b ≠ 0 ∧ b ≠ keys.ESCAPE_CHARACTER ∧ b ≠ 13 ∧ b ≠ 10
    ∧ b ≠ 8))

/-- Key codes that do not collide with the bytes the editor treats first: the escape marker is
not backspace, carriage return or line feed; the arrow codes are none of these nor the escape
marker, and differ from each other; the sequence marker is not the escape marker. -/
def KeysOK (keys : KeyCodes) : Prop :=
  keys.ESCAPE_CHARACTER ≠ 8 ∧ keys.ESCAPE_CHARACTER ≠ 13 ∧ keys.ESCAPE_CHARACTER ≠ 10 ∧
  keys.ESCAPE_SEQUENCE ≠ keys.ESCAPE_CHARACTER ∧
  keys.KEY_UP ≠ keys.ESCAPE_CHARACTER ∧ keys.KEY_UP ≠ 13 ∧ keys.KEY_UP ≠ 10 ∧ keys.KEY_UP ≠ 8 ∧
  keys.KEY_DOWN ≠ keys.ESCAPE_CHARACTER ∧ keys.KEY_DOWN ≠ 13 ∧ keys.KEY_DOWN ≠ 10 ∧
  keys.KEY_DOWN ≠ 8 ∧ keys.KEY_DOWN ≠ keys.KEY_UP

instance (keys : KeyCodes) : Decidable (KeysOK keys) :=
  inferInstanceAs (Decidable (
    keys.ESCAPE_CHARACTER ≠ 8 ∧ keys.ESCAPE_CHARACTER ≠ 13 ∧ keys.ESCAPE_CHARACTER ≠ 10 ∧
    keys.ESCAPE_SEQUENCE ≠ keys.ESCAPE_CHARACTER ∧
    keys.KEY_UP ≠ keys.ESCAPE_CHARACTER ∧ keys.KEY_UP ≠ 13 ∧ keys.KEY_UP ≠ 10 ∧ keys.KEY_UP ≠ 8 ∧
    keys.KEY_DOWN ≠ keys.ESCAPE_CHARACTER ∧ keys.KEY_DOWN ≠ 13 ∧ keys.KEY_DOWN ≠ 10 ∧
    keys.KEY_DOWN ≠ 8 ∧ keys.KEY_DOWN ≠ keys.KEY_UP))

instance (s : History) : Decidable (RingInv s) :=
  inferInstanceAs (Decidable (
    s.cmdhist_entries ≤ MAX_HIST ∧ s.cmdhist_write < MAX_HIST ∧ s.cmdhist_read < MAX_HIST ∧
    (s.cmdhist_entries < MAX_HIST → s.cmdhist_write = s.cmdhist_entries)))

instance (K : Config) (s : History) : Decidable (Shape K s) :=
  inferInstanceAs (Decidable (s.cmdhistory.length = MAX_HIST ∧ RowsOK K s.cmdhistory))

/-! ## Sample inputs -/

/-- A configuration to evaluate examples at. -/
def sampleConfig : Config :=
  { MAX_COMMANDLINE_LENGTH := 8, MAX_ARGS := 16, COMMAND_MAGIC := 0x436d6420,
    EINVAL := 1, ECOMMAND := 2, EAMBIGCMD := 3, EMAGIC := 4 }

/-- A sample descriptor: the command `reset`. -/
def sampleReset : commandlist_t :=
  { magic := 0x436d6420, name := [114, 101, 115, 101, 116],
    callback := fun argc _ => 100 + (argc : Int) }

/-- A sample descriptor: the command `read`. -/
def sampleRead : commandlist_t :=
  { magic := 0x436d6420, name := [114, 101, 97, 100],
    callback := fun argc _ => 200 + (argc : Int) }

/-- A sample descriptor: the command `reboot`. -/
def sampleReboot : commandlist_t :=
  { magic := 0x436d6420, name := [114, 101, 98, 111, 111, 116],
    callback := fun argc _ => 300 + (argc : Int) }

/-- The registry of the end-to-end example: `reset`, `read`, `reboot`. -/
def sampleRegistry : List commandlist_t :=
  [sampleReset, sampleRead, sampleReboot]

/-- The sample registry with the integrity tag of `read` overwritten. -/
def corruptRegistry : List commandlist_t :=
  [sampleReset, { sampleRead with magic := 0 }, sampleReboot]

/-- The initial state on a cleared history, at the sample configuration. -/
def sampleInit : History :=
  init_commands (zeroHistory sampleConfig)

/-- The ring after `MAX_HIST` one-byte lines have been pushed from the initial state. -/
def fullRing : History :=
  pushAll sampleConfig (sampleLines MAX_HIST) sampleInit

/-- Sample input of `MAX_HIST + 1` distinct non-empty lines, the last of which has more than
`MAX_COMMANDLINE_LENGTH` bytes. -/
def overlongLines : List (List Nat) :=
  sampleLines MAX_HIST ++ [List.replicate 9 97]

/-- The full ring after a reset of the read cursor and `MAX_HIST` calls of `cmdhist_next`. -/
def fullRingWalked : History :=
  (nextN sampleConfig MAX_HIST (cmdhist_reset fullRing).2).2

/-- A sample line of seventeen words, one more than `MAX_ARGS` at the sample configuration: the
word `res` followed by sixteen words `x`. -/
def manyWordsLine : List Nat :=
  [114, 101, 115] ++ (List.replicate 16 [32, 120]).flatten

/-- The key codes of an ANSI terminal: `ESC`, `[`, `A`, `B`. -/
def sampleKeys : KeyCodes :=
  { ESCAPE_CHARACTER := 27, ESCAPE_SEQUENCE := 91, KEY_UP := 65, KEY_DOWN := 66 }

/-- The history after the line `hello` has been pushed from the initial state. -/
def helloRing : History :=
  (cmdhist_push sampleConfig (some [104, 101, 108, 108, 111]) sampleInit).2

/-- The editor after `a`, the escape marker and the sequence marker have been typed on the
history that holds `hello`. -/
def sampleEscState : Editor :=
  (get_command sampleConfig sampleKeys (List.replicate 8 255) 8 [97, 27, 91] helloRing).2

/-! ## Strings -/

theorem cstring_nil : cstring [] = [] := rfl

theorem cstring_cons_zero (t : List Nat) : cstring (0 :: t) = [] := by
  simp [cstring]

theorem cstring_cons_ne {b : Nat} (hb : b ≠ 0) (t : List Nat) :
    cstring (b :: t) = b :: cstring t := by
  simp [cstring, hb]

theorem cstring_append_nul (l t : List Nat) (hl : ∀ b ∈ l, b ≠ 0) :
    cstring (l ++ 0 :: t) = l := by
  induction l with
  | nil => simp [cstring]
  | cons a l ih =>
    have ha : a ≠ 0 := hl a (by simp)
    have hl2 : ∀ b ∈ l, b ≠ 0 := fun b hb => hl b (by simp [hb])
    simp only [List.cons_append]
    rw [cstring_cons_ne ha, ih hl2]

theorem cstring_append_of_ne (l t : List Nat) (hl : ∀ b ∈ l, b ≠ 0) :
    cstring (l ++ t) = l ++ cstring t := by
  induction l with
  | nil => simp
  | cons a l ih =>
    have ha : a ≠ 0 := hl a (by simp)
    have hl2 : ∀ b ∈ l, b ≠ 0 := fun b hb => hl b (by simp [hb])
    simp only [List.cons_append]
    rw [cstring_cons_ne ha, ih hl2]

theorem cstring_of_ne (l : List Nat) (hl : ∀ b ∈ l, b ≠ 0) : cstring l = l := by
  have h := cstring_append_of_ne l [] hl
  simpa [cstring_nil] using h

theorem strlen_eq_length_cstring (m : List Nat) : _strlen m = (cstring m).length := by
  induction m with
  | nil => rfl
  | cons b t ih =>
    by_cases hb : b = 0
    · subst hb; simp [_strlen, cstring_cons_zero]
    · simp [_strlen, hb, cstring_cons_ne hb, ih]

theorem strlen_of_ne (l : List Nat) (hl : ∀ b ∈ l, b ≠ 0) : _strlen l = l.length := by
  rw [strlen_eq_length_cstring, cstring_of_ne l hl]

theorem cstring_ne_nil_iff (m : List Nat) : cstring m ≠ [] ↔ m.headD 0 ≠ 0 := by
  cases m with
  | nil => simp [cstring]
  | cons b t =>
    by_cases hb : b = 0
    · subst hb; simp [cstring_cons_zero]
    · simp [cstring_cons_ne hb, hb]

theorem strncpyBytes_nil (n : Nat) : strncpyBytes [] n = List.replicate n 0 := by
  induction n with
  | zero => rfl
  | succ n ih => simp [strncpyBytes, ih, List.replicate_succ]

theorem strncpyBytes_length (src : List Nat) (n : Nat) : (strncpyBytes src n).length = n := by
  induction n generalizing src with
  | zero => cases src <;> rfl
  | succ n ih =>
    cases src with
    | nil => simp [strncpyBytes, ih]
    | cons b t =>
      by_cases hb : b = 0
      · simp [strncpyBytes, hb, ih]
      · simp [strncpyBytes, hb, ih]

theorem strncpyBytes_of_le (l : List Nat) (n : Nat) (hl : ∀ b ∈ l, b ≠ 0) (hn : l.length ≤ n) :
    strncpyBytes l n = l ++ List.replicate (n - l.length) 0 := by
  induction l generalizing n with
  | nil => simp [strncpyBytes_nil]
  | cons a l ih =>
    have ha : a ≠ 0 := hl a (by simp)
    have hl2 : ∀ b ∈ l, b ≠ 0 := fun b hb => hl b (by simp [hb])
    cases n with
    | zero => simp at hn
    | succ n =>
      have hn2 : l.length ≤ n := by simpa using hn
      simp [strncpyBytes, ha, ih n hl2 hn2]

/-! ## Rows of the history -/

theorem storedRow_length (K : Config) (l : List Nat)
    (h : l.length ≤ K.MAX_COMMANDLINE_LENGTH) :
    (storedRow K l).length = K.MAX_COMMANDLINE_LENGTH := by
  simp [storedRow]; omega

theorem storedRow_eq_cons (K : Config) (l : List Nat) (h : l.length < K.MAX_COMMANDLINE_LENGTH) :
    storedRow K l =
      l ++ 0 :: List.replicate (K.MAX_COMMANDLINE_LENGTH - l.length - 1) 0 := by
  unfold storedRow
  have : K.MAX_COMMANDLINE_LENGTH - l.length = (K.MAX_COMMANDLINE_LENGTH - l.length - 1) + 1 := by
    omega
  rw [this, List.replicate_succ]
  simp

theorem slotMem_eq (rows : List (List Nat)) (p : Nat) :
    slotMem rows p = rows.getD p [] ++ slotMem rows (p + 1) := by
  induction rows generalizing p with
  | nil => simp [slotMem]
  | cons r rs ih =>
    cases p with
    | zero => simp [slotMem]
    | succ p =>
      have h := ih p
      simpa [slotMem] using h

theorem slot_read (K : Config) (rows : List (List Nat)) (p : Nat) (l : List Nat)
    (hrow : rows.getD p [] = storedRow K l) (hl : FitsSlot K l) :
    slotFirst rows p ≠ 0 ∧ slotString rows p = l := by
  obtain ⟨hne, hnul, hlen⟩ := hl
  have hmem : slotMem rows p =
      l ++ 0 :: (List.replicate (K.MAX_COMMANDLINE_LENGTH - l.length - 1) 0
        ++ slotMem rows (p + 1)) := by
    rw [slotMem_eq, hrow, storedRow_eq_cons K l hlen]
    simp
  constructor
  · unfold slotFirst
    rw [hmem]
    cases l with
    | nil => exact absurd rfl hne
    | cons a t => simpa using hnul a (by simp)
  · unfold slotString
    rw [hmem]
    exact cstring_append_nul l _ hnul

theorem push_accepted (K : Config) (l : List Nat) (s : History)
    (hne : l ≠ []) (hnul : ∀ b ∈ l, b ≠ 0) (hlen : l.length ≤ K.MAX_COMMANDLINE_LENGTH)
    (hrow : (s.cmdhistory.getD s.cmdhist_write []).length ≤ K.MAX_COMMANDLINE_LENGTH) :
    cmdhist_push K (some l) s =
      (0, { cmdhistory := s.cmdhistory.set s.cmdhist_write (storedRow K l),
            cmdhist_write := (s.cmdhist_write + 1) % MAX_HIST,
            cmdhist_entries :=
              if s.cmdhist_entries < MAX_HIST then s.cmdhist_entries + 1 else s.cmdhist_entries,
            cmdhist_read := s.cmdhist_read }) := by
  have h1 : _strlen l = l.length := strlen_of_ne l hnul
  have h2 : ¬ (l.length > K.MAX_COMMANDLINE_LENGTH) := by omega
  have h3 : l.length ≠ 0 := by
    intro h; exact hne (List.length_eq_zero.mp h)
  have h4 : _strncpy (s.cmdhistory.getD s.cmdhist_write []) l K.MAX_COMMANDLINE_LENGTH
      = storedRow K l := by
    unfold _strncpy storedRow
    rw [strncpyBytes_of_le l _ hnul hlen, List.drop_eq_nil_of_le hrow]
    simp
  simp only [cmdhist_push, h1, h2, h3, h4, if_false]

theorem rowsOK_getD (K : Config) (rows : List (List Nat)) (h : RowsOK K rows) (p : Nat) :
    (rows.getD p []).length ≤ K.MAX_COMMANDLINE_LENGTH := by
  by_cases hp : p < rows.length
  · rw [List.getD_eq_getElem rows [] hp]
    exact le_of_eq (h _ (List.getElem_mem hp))
  · rw [List.getD_eq_default rows [] (by omega)]
    simp

theorem rowsOK_set (K : Config) (rows : List (List Nat)) (h : RowsOK K rows) (p : Nat)
    (row : List Nat) (hrow : row.length = K.MAX_COMMANDLINE_LENGTH) :
    RowsOK K (rows.set p row) := by
  intro r hr
  rcases List.mem_or_eq_of_mem_set hr with h1 | h1
  · exact h r h1
  · rw [h1]; exact hrow

theorem take_succ_set (rows : List (List Nat)) (e : Nat) (x : List Nat) (he : e < rows.length) :
    (rows.set e x).take (e + 1) = rows.take e ++ [x] := by
  induction rows generalizing e with
  | nil => simp at he
  | cons r rs ih =>
    cases e with
    | zero => simp
    | succ e =>
      have he2 : e < rs.length := by simpa using he
      simp [ih e he2]

theorem drop_succ_set (rows : List (List Nat)) (e k : Nat) (x : List Nat) :
    (rows.set e x).drop (e + 1 + k) = rows.drop (e + 1 + k) := by
  induction rows generalizing e with
  | nil => simp
  | cons r rs ih =>
    cases e with
    | zero => simp [Nat.add_comm]
    | succ e =>
      have h := ih e
      have e1 : e + 1 + 1 + k = (e + 1 + k) + 1 := by omega
      rw [e1]
      simpa using h

/-- The history after `e + k` accepted pushes into a ring that held `e` entries, while the ring
does not wrap: the new rows lie between the first `e` rows and the rows never written. -/
theorem pushAll_closed (K : Config) (lines : List (List Nat)) :
    ∀ (s : History) (e : Nat),
      (∀ l ∈ lines, FitsSlot K l) → RowsOK K s.cmdhistory → s.cmdhistory.length = MAX_HIST →
      s.cmdhist_entries = e → s.cmdhist_write = e % MAX_HIST → e + lines.length ≤ MAX_HIST →
      pushAll K lines s =
        { cmdhist_entries := e + lines.length, cmdhist_read := s.cmdhist_read,
          cmdhist_write := (e + lines.length) % MAX_HIST,
          cmdhistory := s.cmdhistory.take e ++ lines.map (storedRow K)
            ++ s.cmdhistory.drop (e + lines.length) } := by
  induction lines with
  | nil =>
    intro s e _ _ _ he hw _
    cases s
    simp_all [pushAll]
  | cons l ls ih =>
    intro s e hfit hrows hlen he hw hk
    have hl : FitsSlot K l := hfit l (by simp)
    have hls : ∀ x ∈ ls, FitsSlot K x := fun x hx => hfit x (by simp [hx])
    have hk2 : e + 1 + ls.length ≤ MAX_HIST := by simp at hk; omega
    have he32 : e < MAX_HIST := by omega
    have hw2 : s.cmdhist_write = e := by rw [hw]; exact Nat.mod_eq_of_lt he32
    have hpush := push_accepted K l s hl.1 hl.2.1 (le_of_lt hl.2.2)
      (rowsOK_getD K _ hrows _)
    have hstep : pushAll K (l :: ls) s = pushAll K ls (cmdhist_push K (some l) s).2 := rfl
    rw [hstep, hpush]
    rw [ih _ (e + 1) hls
      (rowsOK_set K _ hrows _ _ (storedRow_length K l (le_of_lt hl.2.2)))
      (by simpa using hlen) (by simp [he, he32]) (by simp [hw2]) hk2]
    have hel : e < s.cmdhistory.length := by rw [hlen]; exact he32
    simp only [hw2, take_succ_set _ _ _ hel, drop_succ_set]
    have e1 : e + 1 + ls.length = e + (l :: ls).length := by simp; omega
    simp [e1]

/-! ## The initial state -/

theorem set_same_of_all (z : List Nat) (h : List (List Nat)) (hz : ∀ row ∈ h, row = z) (i : Nat) :
    h.set i z = h := by
  induction h generalizing i with
  | nil => simp
  | cons r rs ih =>
    have hr : r = z := hz r (by simp)
    have hrs : ∀ row ∈ rs, row = z := fun row hrow => hz row (by simp [hrow])
    cases i with
    | zero => simp [hr]
    | succ i => simp [ih hrs i]

theorem replicate_set_zero (n : Nat) : (List.replicate n 0).set 0 0 = List.replicate n 0 := by
  cases n with
  | zero => simp
  | succ n => simp [List.replicate_succ]

theorem clearLoop_zero (n m i : Nat) :
    clearLoop i (List.replicate m (List.replicate n 0)) = List.replicate m (List.replicate n 0) := by
  induction i with
  | zero => rfl
  | succ i ih =>
    have hrow : ((List.replicate m (List.replicate n 0)).getD i []).set 0 0 =
        List.replicate n 0 ∨
        ((List.replicate m (List.replicate n 0)).getD i []).set 0 0 = [] ∧ m ≤ i := by
      by_cases hi : i < m
      · left
        rw [List.getD_eq_getElem _ _ (by simpa using hi)]
        simp [replicate_set_zero]
      · right
        rw [List.getD_eq_default _ _ (by simpa using hi)]
        exact ⟨by simp, by omega⟩
    simp only [clearLoop]
    rcases hrow with h | ⟨h, hm⟩
    · rw [h, set_same_of_all _ _ (fun row hr => (List.mem_replicate.mp hr).2)]
      exact ih
    · rw [h, List.set_eq_of_length_le (by simpa using hm)]
      exact ih

theorem init_commands_zero (K : Config) : init_commands (zeroHistory K) = zeroHistory K := by
  simp [init_commands, zeroHistory, clearLoop_zero]

theorem zeroHistory_rowsOK (K : Config) : RowsOK K (zeroHistory K).cmdhistory := by
  intro row hrow
  simp only [zeroHistory, List.mem_replicate] at hrow
  rw [hrow.2]; simp

/-- The history after at most `MAX_HIST` lines that fit have been pushed from the initial
state. -/
theorem pushAll_init (K : Config) (lines : List (List Nat)) (hfit : ∀ l ∈ lines, FitsSlot K l)
    (hk : lines.length ≤ MAX_HIST) :
    pushAll K lines (init_commands (zeroHistory K)) =
      { cmdhist_entries := lines.length, cmdhist_read := 0,
        cmdhist_write := lines.length % MAX_HIST,
        cmdhistory := lines.map (storedRow K)
          ++ List.replicate (MAX_HIST - lines.length)
              (List.replicate K.MAX_COMMANDLINE_LENGTH 0) } := by
  rw [init_commands_zero]
  rw [pushAll_closed K lines (zeroHistory K) 0 hfit (zeroHistory_rowsOK K)
    (by simp [zeroHistory]) rfl rfl (by omega)]
  simp [zeroHistory]

/-! ## Recall -/

theorem next_step (K : Config) (s : History) (p : Nat) (l : List Nat)
    (hent : s.cmdhist_entries ≠ 0) (hread : s.cmdhist_read = p + 1)
    (hrow : s.cmdhistory.getD p [] = storedRow K l) (hl : FitsSlot K l) :
    cmdhist_next K (some none) s = ⟨0, some (some p), { s with cmdhist_read := p }⟩ := by
  have h := (slot_read K s.cmdhistory p l hrow hl).1
  simp [cmdhist_next, hent, hread, h]

theorem next_wrap (K : Config) (s : History) (l : List Nat)
    (hent : s.cmdhist_entries = MAX_HIST) (hread : s.cmdhist_read = 0)
    (hrow : s.cmdhistory.getD (MAX_HIST - 1) [] = storedRow K l) (hl : FitsSlot K l) :
    cmdhist_next K (some none) s =
      ⟨0, some (some (MAX_HIST - 1)), { s with cmdhist_read := MAX_HIST - 1 }⟩ := by
  have h := (slot_read K s.cmdhistory (MAX_HIST - 1) l hrow hl).1
  simp only [cmdhist_next, hent, hread]
  simp
  exact h

theorem next_fail_empty (K : Config) (s : History) (hread : s.cmdhist_read = 0)
    (hent : s.cmdhist_entries ≠ MAX_HIST) (cmd : Option (Option Nat)) :
    cmdhist_next K cmd s = ⟨-(K.EINVAL : Int), cmd, s⟩ := by
  simp only [cmdhist_next, hread]
  by_cases h0 : s.cmdhist_entries = 0
  · simp [h0]
  · by_cases hc : cmd = none
    · simp [h0, hc]
    · simp [h0, hc, hent]

theorem recalled_of_row (K : Config) (s : History) (p : Nat) (l : List Nat) (r : Int)
    (hrow : s.cmdhistory.getD p [] = storedRow K l) (hl : FitsSlot K l) :
    recalled ⟨r, some (some p), s⟩ = some l := by
  simp [recalled, (slot_read K s.cmdhistory p l hrow hl).2]

theorem nextN_cons (K : Config) (n : Nat) (s : History) (r : NavResult)
    (h : cmdhist_next K (some none) s = r) :
    nextN K (n + 1) s =
      ((r.ret, recalled r) :: (nextN K n r.hist).1, (nextN K n r.hist).2) := by
  subst h; rfl

theorem getD_map_append (K : Config) (A : List (List Nat)) (l : List Nat)
    (rest : List (List Nat)) :
    (A.map (storedRow K) ++ storedRow K l :: rest).getD A.length [] = storedRow K l := by
  rw [List.getD_eq_getElem _ _ (by simp)]
  rw [List.getElem_append_right (by simp)]
  simp

/-- With the read cursor above rows that hold lines, as many calls of `cmdhist_next` as there are
such rows walk down through them and leave the cursor at row 0. -/
theorem nextN_desc (K : Config) (A : List (List Nat)) :
    ∀ (rest : List (List Nat)) (s : History),
      (∀ l ∈ A, FitsSlot K l) → s.cmdhistory = A.map (storedRow K) ++ rest →
      s.cmdhist_read = A.length → s.cmdhist_entries ≠ 0 →
      nextN K A.length s =
        (A.reverse.map (fun l => ((0 : Int), some l)), { s with cmdhist_read := 0 }) := by
  induction A using List.reverseRecOn with
  | nil =>
    intro rest s _ _ hread _
    cases s
    simp_all [nextN]
  | append_singleton B l ih =>
    intro rest s hfit hrows hread hent
    have hl : FitsSlot K l := hfit l (by simp)
    have hB : ∀ x ∈ B, FitsSlot K x := fun x hx => hfit x (by simp [hx])
    have hrows2 : s.cmdhistory = B.map (storedRow K) ++ storedRow K l :: rest := by
      rw [hrows]; simp
    have hrow : s.cmdhistory.getD B.length [] = storedRow K l := by
      rw [hrows2]; exact getD_map_append K B l rest
    have hread2 : s.cmdhist_read = B.length + 1 := by simpa using hread
    have hstep := next_step K s B.length l hent hread2 hrow hl
    have hlen : (B ++ [l]).length = B.length + 1 := by simp
    rw [hlen]
    simp only [nextN, hstep]
    rw [ih (storedRow K l :: rest) { s with cmdhist_read := B.length } hB hrows2 rfl hent]
    have hrec : recalled ⟨0, some (some B.length), { s with cmdhist_read := B.length }⟩
        = some l := recalled_of_row K _ B.length l 0 hrow hl
    simp [hrec]

/-- After at most `MAX_HIST` lines that fit have been pushed from the initial state and the read
cursor has been reset, as many calls of `cmdhist_next` as there were lines return them, the most
recent first, and leave the read cursor at row 0. -/
theorem nextN_after_push (K : Config) (lines : List (List Nat))
    (hfit : ∀ l ∈ lines, FitsSlot K l) (hk : lines.length ≤ MAX_HIST) :
    nextN K lines.length
        (cmdhist_reset (pushAll K lines (init_commands (zeroHistory K)))).2 =
      (lines.reverse.map (fun l => ((0 : Int), some l)),
        { cmdhist_entries := lines.length, cmdhist_read := 0,
          cmdhist_write := lines.length % MAX_HIST,
          cmdhistory := lines.map (storedRow K)
            ++ List.replicate (MAX_HIST - lines.length)
                (List.replicate K.MAX_COMMANDLINE_LENGTH 0) }) := by
  rw [pushAll_init K lines hfit hk]
  simp only [cmdhist_reset]
  rcases Nat.lt_or_ge lines.length MAX_HIST with hlt | hge
  · -- the ring is not full: the read cursor stands right above the rows written
    rw [Nat.mod_eq_of_lt hlt]
    by_cases h0 : lines = []
    · subst h0; simp [nextN]
    · have hlen0 : lines.length ≠ 0 := fun h => h0 (List.length_eq_zero.mp h)
      rw [nextN_desc K lines _ _ hfit rfl rfl hlen0]
  · -- the ring is full: the read cursor stands at row 0 and the first call wraps
    have hlen : lines.length = MAX_HIST := le_antisymm hk hge
    obtain ⟨B, l, hBl⟩ : ∃ B l, lines = B ++ [l] := by
      rcases List.eq_nil_or_concat lines with h | ⟨B, l, h⟩
      · rw [h] at hlen; simp at hlen
      · exact ⟨B, l, by simpa using h⟩
    subst hBl
    have hBlen : B.length = MAX_HIST - 1 := by simp at hlen; omega
    have hl : FitsSlot K l := hfit l (by simp)
    have hB : ∀ x ∈ B, FitsSlot K x := fun x hx => hfit x (by simp [hx])
    rw [hlen]
    simp only [Nat.mod_self, Nat.sub_self, List.replicate_zero, List.append_nil,
      List.map_append, List.map_cons, List.map_nil]
    have hB31 : B.length = 31 := hBlen
    have hrow : (B.map (storedRow K) ++ [storedRow K l]).getD 31 [] = storedRow K l := by
      rw [← hB31]; exact getD_map_append K B l []
    have hwrap := next_wrap K
      { cmdhist_entries := MAX_HIST, cmdhist_read := 0, cmdhist_write := 0,
        cmdhistory := B.map (storedRow K) ++ [storedRow K l] } l rfl rfl hrow hl
    have hrec : recalled ⟨0, some (some 31),
        { cmdhist_entries := MAX_HIST, cmdhist_read := 31, cmdhist_write := 0,
          cmdhistory := B.map (storedRow K) ++ [storedRow K l] }⟩ = some l :=
      recalled_of_row K _ 31 l 0 hrow hl
    have hdesc := nextN_desc K B [storedRow K l]
      { cmdhist_entries := MAX_HIST, cmdhist_read := 31, cmdhist_write := 0,
        cmdhistory := B.map (storedRow K) ++ [storedRow K l] } hB rfl hB31.symm (by simp)
    rw [hB31] at hdesc
    rw [nextN_cons K 31 _ _ hwrap]
    simp only [Nat.add_one_sub_one]
    rw [hdesc, hrec]
    simp

/-! ## Claims on the history ring -/

/-- C4: from the initial state on a cleared history, after `k ≤ MAX_HIST` non-empty lines that
each fit a history row with their terminator have been pushed and the read cursor has been reset,
`k` successive calls of `cmdhist_next` all return 0 and hand back the lines most recent first:
the `j`-th call returns the `(k+1-j)`-th pushed line. -/
theorem cmdhist_next_most_recent_first (K : Config) (lines : List (List Nat))
    (hk : lines.length ≤ MAX_HIST) (hfit : ∀ l ∈ lines, FitsSlot K l) :
    (nextN K lines.length
        (cmdhist_reset (pushAll K lines (init_commands (zeroHistory K)))).2).1
      = lines.reverse.map (fun l => ((0 : Int), some l)) := by
  rw [nextN_after_push K lines hfit hk]

theorem cmdhist_next_most_recent_first_witness :
    [[97], [98, 99], [100]].length ≤ MAX_HIST ∧
    (∀ l ∈ [[97], [98, 99], [100]], FitsSlot sampleConfig l) ∧
    (nextN sampleConfig 3
        (cmdhist_reset (pushAll sampleConfig [[97], [98, 99], [100]]
          (init_commands (zeroHistory sampleConfig)))).2).1
      = [((0 : Int), some [100]), (0, some [98, 99]), (0, some [97])] :=
  ⟨by decide, by decide,
    cmdhist_next_most_recent_first sampleConfig [[97], [98, 99], [100]] (by decide) (by decide)⟩

/-- A push changes nothing or stores into the row at the write cursor and advances. -/
theorem push_counters (K : Config) (c : List Nat) (s : History) :
    (cmdhist_push K (some c) s).2 = s ∨
    ((cmdhist_push K (some c) s).2.cmdhist_write = (s.cmdhist_write + 1) % MAX_HIST ∧
     (cmdhist_push K (some c) s).2.cmdhist_entries =
       (if s.cmdhist_entries < MAX_HIST then s.cmdhist_entries + 1 else s.cmdhist_entries) ∧
     (cmdhist_push K (some c) s).2.cmdhist_read = s.cmdhist_read) := by
  unfold cmdhist_push
  by_cases h1 : _strlen c > K.MAX_COMMANDLINE_LENGTH
  · left; simp [h1]
  · by_cases h2 : _strlen c = 0
    · left; simp [h2]
    · right; simp [h1, h2]

/-- While fewer than `MAX_HIST` pushes have been made from an empty ring, the write cursor equals
the number of entries, whatever lines were offered. -/
theorem pushAll_counters (K : Config) (lines : List (List Nat)) :
    ∀ s : History, s.cmdhist_entries = s.cmdhist_write →
      s.cmdhist_entries + lines.length < MAX_HIST →
      (pushAll K lines s).cmdhist_entries = (pushAll K lines s).cmdhist_write ∧
      (pushAll K lines s).cmdhist_entries ≤ s.cmdhist_entries + lines.length := by
  induction lines with
  | nil => intro s h _; exact ⟨h, by simp [pushAll]⟩
  | cons l ls ih =>
    intro s h hk
    have hstep : pushAll K (l :: ls) s = pushAll K ls (cmdhist_push K (some l) s).2 := rfl
    simp only [List.length_cons] at hk
    rw [hstep]
    rcases push_counters K l s with h1 | ⟨hw, he, _⟩
    · rw [h1]
      have := ih s h (by omega)
      exact ⟨this.1, by simp only [List.length_cons]; omega⟩
    · have hlt : s.cmdhist_entries < MAX_HIST := by omega
      rw [if_pos hlt] at he
      have hw2 : (cmdhist_push K (some l) s).2.cmdhist_write = s.cmdhist_write + 1 := by
        rw [hw]; exact Nat.mod_eq_of_lt (by omega)
      have := ih (cmdhist_push K (some l) s).2 (by rw [he, hw2, h]) (by rw [he]; omega)
      exact ⟨this.1, by simp only [List.length_cons]; omega⟩

/-- A call of `cmdhist_next` on a ring that is not full fails without any change or moves the
read cursor one row down; the number of entries stays. -/
theorem next_cases (K : Config) (s : History) (hent : s.cmdhist_entries ≠ MAX_HIST) :
    cmdhist_next K (some none) s = ⟨-(K.EINVAL : Int), some none, s⟩ ∨
    ((cmdhist_next K (some none) s).hist.cmdhist_read + 1 = s.cmdhist_read ∧
     (cmdhist_next K (some none) s).hist.cmdhist_entries = s.cmdhist_entries) := by
  unfold cmdhist_next
  by_cases h0 : s.cmdhist_entries = 0
  · left; simp [h0]
  · by_cases hr : s.cmdhist_read = 0
    · left; simp [h0, hr, hent]
    · by_cases hf : slotFirst s.cmdhistory (s.cmdhist_read - 1) = 0
      · left; simp [h0, hr, hf]
      · right
        simp only [h0, hr, hf, if_false]
        exact ⟨by simp; omega, rfl⟩

theorem nextN_of_fail (K : Config) (n : Nat) (s : History)
    (h : cmdhist_next K (some none) s = ⟨-(K.EINVAL : Int), some none, s⟩) :
    (nextN K n s).2 = s := by
  induction n with
  | zero => rfl
  | succ n ih => rw [nextN_cons K n s _ h]; exact ih

/-- After `n` calls of `cmdhist_next` on a ring that is not full, either a further call fails
without any change or all `n` calls have moved the read cursor down. -/
theorem nextN_cases (K : Config) (n : Nat) :
    ∀ s : History, s.cmdhist_entries ≠ MAX_HIST →
      (nextN K n s).2.cmdhist_entries = s.cmdhist_entries ∧
      (cmdhist_next K (some none) (nextN K n s).2
          = ⟨-(K.EINVAL : Int), some none, (nextN K n s).2⟩ ∨
        (nextN K n s).2.cmdhist_read + n = s.cmdhist_read) := by
  induction n with
  | zero => intro s _; exact ⟨rfl, Or.inr rfl⟩
  | succ n ih =>
    intro s hent
    rcases next_cases K s hent with hfail | ⟨hread, hsame⟩
    · rw [nextN_of_fail K (n + 1) s hfail]
      exact ⟨rfl, Or.inl hfail⟩
    · rw [nextN_cons K n s _ rfl]
      have := ih (cmdhist_next K (some none) s).hist (by rw [hsame]; exact hent)
      refine ⟨?_, ?_⟩
      · show (nextN K n (cmdhist_next K (some none) s).hist).2.cmdhist_entries = _
        rw [this.1, hsame]
      · show cmdhist_next K (some none) (nextN K n (cmdhist_next K (some none) s).hist).2
            = ⟨-(K.EINVAL : Int), some none, (nextN K n (cmdhist_next K (some none) s).hist).2⟩ ∨
          (nextN K n (cmdhist_next K (some none) s).hist).2.cmdhist_read + (n + 1)
            = s.cmdhist_read
        rcases this.2 with h | h
        · exact Or.inl h
        · exact Or.inr (by omega)

/-- C5, at the input where the code departs from it: on the ring filled by `MAX_HIST` distinct
non-empty lines, after a reset and `MAX_HIST` calls of `cmdhist_next` the read cursor is back at
row 0, and the next call returns 0, hands back the most recent line again and moves the read
cursor to the last row. -/
theorem cmdhist_next_full_ring_goes_round :
    (sampleLines MAX_HIST).length = MAX_HIST ∧ (sampleLines MAX_HIST).Nodup ∧
    (∀ l ∈ sampleLines MAX_HIST, FitsSlot sampleConfig l) ∧
    fullRingWalked.cmdhist_read = 0 ∧
    (cmdhist_next sampleConfig (some none) fullRingWalked).ret = 0 ∧
    (cmdhist_next sampleConfig (some none) fullRingWalked).hist.cmdhist_read = MAX_HIST - 1 ∧
    recalled (cmdhist_next sampleConfig (some none) fullRingWalked) = some [96] := by
  set_option maxRecDepth 100000 in decide

/-- C5, amended: from the initial state on a cleared history, for every `k < MAX_HIST`, after `k`
lines have been offered to `cmdhist_push`, the read cursor has been reset and `cmdhist_next` has
been called `k` times, the next call of `cmdhist_next` returns `-EINVAL` and leaves the pointer it
was given, `entries`, both cursors and every row as they were. -/
theorem cmdhist_next_past_oldest_fails (K : Config) (lines : List (List Nat))
    (hk : lines.length < MAX_HIST) :
    cmdhist_next K (some none)
        (nextN K lines.length
          (cmdhist_reset (pushAll K lines (init_commands (zeroHistory K)))).2).2 =
      ⟨-(K.EINVAL : Int), some none,
        (nextN K lines.length
          (cmdhist_reset (pushAll K lines (init_commands (zeroHistory K)))).2).2⟩ := by
  have hpush := pushAll_counters K lines (init_commands (zeroHistory K)) rfl
    (by simpa [init_commands] using hk)
  have hle : (pushAll K lines (init_commands (zeroHistory K))).cmdhist_entries
      ≤ lines.length := by simpa [init_commands] using hpush.2
  have hent : (cmdhist_reset (pushAll K lines (init_commands (zeroHistory K)))).2.cmdhist_entries
      ≠ MAX_HIST := by
    simp only [cmdhist_reset]; omega
  have hread : (cmdhist_reset (pushAll K lines (init_commands (zeroHistory K)))).2.cmdhist_read
      ≤ lines.length := by
    simp only [cmdhist_reset]; rw [← hpush.1]; exact hle
  have hcases := nextN_cases K lines.length _ hent
  rcases hcases.2 with h | h
  · exact h
  · exact next_fail_empty K _ (by omega) (by rw [hcases.1]; exact hent) _

theorem cmdhist_next_past_oldest_fails_witness :
    [[97], [98, 99]].length < MAX_HIST ∧
    cmdhist_next sampleConfig (some none)
        (nextN sampleConfig 2
          (cmdhist_reset (pushAll sampleConfig [[97], [98, 99]] sampleInit)).2).2 =
      ⟨-1, some none,
        (nextN sampleConfig 2
          (cmdhist_reset (pushAll sampleConfig [[97], [98, 99]] sampleInit)).2).2⟩ :=
  ⟨by decide, cmdhist_next_past_oldest_fails sampleConfig [[97], [98, 99]] (by decide)⟩

theorem getD_stored_rows (K : Config) (lines : List (List Nat)) (rest : List (List Nat))
    (p : Nat) (hp : p < lines.length) :
    (lines.map (storedRow K) ++ rest).getD p [] = storedRow K (lines.getD p []) := by
  rw [List.getD_eq_getElem _ _ (by simp; omega), List.getD_eq_getElem _ _ hp]
  rw [List.getElem_append_left (by simpa using hp)]
  simp

theorem fits_getD (K : Config) (lines : List (List Nat)) (hfit : ∀ l ∈ lines, FitsSlot K l)
    (p : Nat) (hp : p < lines.length) : FitsSlot K (lines.getD p []) := by
  rw [List.getD_eq_getElem _ _ hp]
  exact hfit _ (List.getElem_mem hp)

/-- C6, at the input where the code departs from it: on the ring filled by `MAX_HIST` lines pushed
from the initial state, `cmdhist_reset` followed at once by `cmdhist_prev` returns 0, not
`-EINVAL`, and hands back the second line pushed. -/
theorem cmdhist_prev_after_reset_full_ring (K : Config) (lines : List (List Nat))
    (hk : lines.length = MAX_HIST) (hfit : ∀ l ∈ lines, FitsSlot K l) :
    (cmdhist_prev K (some none)
      (cmdhist_reset (pushAll K lines (init_commands (zeroHistory K)))).2).ret = 0 ∧
    recalled (cmdhist_prev K (some none)
      (cmdhist_reset (pushAll K lines (init_commands (zeroHistory K)))).2)
      = some (lines.getD 1 []) := by
  rw [pushAll_init K lines hfit (le_of_eq hk)]
  have h1 : 1 < lines.length := by rw [hk]; decide
  have hrow := getD_stored_rows K lines
    (List.replicate (MAX_HIST - lines.length) (List.replicate K.MAX_COMMANDLINE_LENGTH 0)) 1 h1
  have hread := slot_read K _ 1 _ hrow (fits_getD K lines hfit 1 h1)
  simp only [hk, Nat.sub_self, List.replicate_zero, List.append_nil] at hread
  obtain ⟨hf, hs⟩ := hread
  simp only [cmdhist_reset, cmdhist_prev, hk, Nat.mod_self, Nat.sub_self, List.replicate_zero,
    List.append_nil]
  simp only [reduceCtorEq, if_false]
  have h01 : (0 + 1) % MAX_HIST = 1 := rfl
  simp only [h01, hf, if_false]
  exact ⟨trivial, by simp only [recalled, hs]⟩

theorem cmdhist_prev_after_reset_full_ring_witness :
    (sampleLines MAX_HIST).length = MAX_HIST ∧
    (∀ l ∈ sampleLines MAX_HIST, FitsSlot sampleConfig l) ∧
    (cmdhist_prev sampleConfig (some none) (cmdhist_reset fullRing).2).ret = 0 ∧
    recalled (cmdhist_prev sampleConfig (some none) (cmdhist_reset fullRing).2) = some [66] :=
  ⟨by decide, by decide,
    cmdhist_prev_after_reset_full_ring sampleConfig (sampleLines MAX_HIST) (by decide)
      (by decide)⟩

theorem slotString_ne_nil (rows : List (List Nat)) (p : Nat) (h : slotFirst rows p ≠ 0) :
    slotString rows p ≠ [] :=
  (cstring_ne_nil_iff (slotMem rows p)).mpr h

theorem navFrame_fail (K : Config) (hE : 0 < K.EINVAL) (s : History)
    (cmd : Option (Option Nat)) : NavFrame K s ⟨-(K.EINVAL : Int), cmd, s⟩ := by
  refine ⟨rfl, rfl, rfl, fun _ => rfl, fun h => ?_⟩
  simp only at h
  omega

theorem navFrame_ok (K : Config) (hE : 0 < K.EINVAL) (s : History) (p : Nat)
    (h : slotFirst s.cmdhistory p ≠ 0) :
    NavFrame K s ⟨0, some (some p), { s with cmdhist_read := p }⟩ := by
  refine ⟨rfl, rfl, rfl, fun h0 => ?_, fun _ => ⟨p, rfl, rfl, rfl, slotString_ne_nil _ _ h⟩⟩
  simp only at h0
  omega

/-- C8, at the input where the code departs from it: a line of exactly `MAX_COMMANDLINE_LENGTH`
bytes is accepted (`cmdhist_push` returns 0) and fills its row without a terminator, so that the
row at the old write cursor reads back as the line followed by the line of the next row, not as
the line. -/
theorem cmdhist_push_full_length_line (K : Config) (s : History) (l : List Nat)
    (hwf : RingWF K s) (hne : l ≠ []) (hnul : ∀ b ∈ l, b ≠ 0)
    (hlen : l.length = K.MAX_COMMANDLINE_LENGTH)
    (hnext : slotFirst s.cmdhistory (s.cmdhist_write + 1) ≠ 0) :
    (cmdhist_push K (some l) s).1 = 0 ∧
    slotString (cmdhist_push K (some l) s).2.cmdhistory s.cmdhist_write
      = l ++ slotString s.cmdhistory (s.cmdhist_write + 1) ∧
    slotString (cmdhist_push K (some l) s).2.cmdhistory s.cmdhist_write ≠ l := by
  obtain ⟨hrows, hok, _, _, hw⟩ := hwf
  have hpush := push_accepted K l s hne hnul (le_of_eq hlen) (rowsOK_getD K _ hok _)
  have hstored : storedRow K l = l := by simp [storedRow, hlen]
  have hmem : slotMem (s.cmdhistory.set s.cmdhist_write l) s.cmdhist_write
      = l ++ slotMem s.cmdhistory (s.cmdhist_write + 1) := by
    rw [slotMem_eq]
    have h1 : (s.cmdhistory.set s.cmdhist_write l).getD s.cmdhist_write [] = l := by
      rw [List.getD_eq_getElem _ _ (by simp; omega)]
      simp
    have h2 : slotMem (s.cmdhistory.set s.cmdhist_write l) (s.cmdhist_write + 1)
        = slotMem s.cmdhistory (s.cmdhist_write + 1) := by
      have := drop_succ_set s.cmdhistory s.cmdhist_write 0 l
      simp only [Nat.add_zero] at this
      simp only [slotMem, this]
    rw [h1, h2]
  have hread : slotString (cmdhist_push K (some l) s).2.cmdhistory s.cmdhist_write
      = l ++ slotString s.cmdhistory (s.cmdhist_write + 1) := by
    rw [hpush, hstored]
    simp only [slotString, hmem]
    exact cstring_append_of_ne l _ hnul
  refine ⟨by rw [hpush], hread, ?_⟩
  rw [hread]
  intro h
  have h2 : slotString s.cmdhistory (s.cmdhist_write + 1) = [] := by
    simpa using h
  exact slotString_ne_nil _ _ hnext h2

theorem cmdhist_push_full_length_line_witness :
    RingWF sampleConfig fullRing ∧ List.replicate 8 97 ≠ [] ∧
    (∀ b ∈ List.replicate 8 97, b ≠ 0) ∧
    (List.replicate 8 97).length = sampleConfig.MAX_COMMANDLINE_LENGTH ∧
    slotFirst fullRing.cmdhistory (fullRing.cmdhist_write + 1) ≠ 0 ∧
    (cmdhist_push sampleConfig (some (List.replicate 8 97)) fullRing).1 = 0 ∧
    slotString (cmdhist_push sampleConfig (some (List.replicate 8 97)) fullRing).2.cmdhistory
        fullRing.cmdhist_write
      = List.replicate 8 97 ++ slotString fullRing.cmdhistory (fullRing.cmdhist_write + 1) ∧
    slotString (cmdhist_push sampleConfig (some (List.replicate 8 97)) fullRing).2.cmdhistory
        fullRing.cmdhist_write ≠ List.replicate 8 97 :=
  ⟨by decide, by decide, by decide, by decide, by decide,
    cmdhist_push_full_length_line sampleConfig fullRing (List.replicate 8 97)
      (by decide) (by decide) (by decide) (by decide) (by decide)⟩

/-- C9: a rejected push changes nothing.  Pushing the empty string returns 0 and pushing a line
longer than `MAX_COMMANDLINE_LENGTH` returns `-EINVAL`; in both cases `entries`, both cursors and
every row are as before. -/
theorem cmdhist_push_rejected_unchanged (K : Config) (s : History) (line : List Nat) :
    (_strlen line = 0 → cmdhist_push K (some line) s = (0, s)) ∧
    (K.MAX_COMMANDLINE_LENGTH < _strlen line →
      cmdhist_push K (some line) s = (-(K.EINVAL : Int), s)) := by
  constructor
  · intro h
    simp [cmdhist_push, h]
  · intro h
    simp [cmdhist_push, h]

theorem cmdhist_push_rejected_unchanged_witness :
    (_strlen [] = 0 ∧ cmdhist_push sampleConfig (some []) fullRing = (0, fullRing)) ∧
    (sampleConfig.MAX_COMMANDLINE_LENGTH < _strlen (List.replicate 9 97) ∧
      cmdhist_push sampleConfig (some (List.replicate 9 97)) fullRing = (-1, fullRing)) :=
  ⟨⟨by decide, (cmdhist_push_rejected_unchanged sampleConfig fullRing []).1 (by decide)⟩,
    ⟨by decide,
      (cmdhist_push_rejected_unchanged sampleConfig fullRing (List.replicate 9 97)).2
        (by decide)⟩⟩

/-- C10: `cmdhist_next` and `cmdhist_prev` never change `entries`, the write cursor or a row;
when either returns `-EINVAL` the read cursor is unchanged too; when either returns 0 the new read
cursor is the index of the row whose line is handed back, and that line is not empty. -/
theorem cmdhist_nav_frame (K : Config) (hE : 0 < K.EINVAL) (cmd : Option (Option Nat))
    (s : History) :
    NavFrame K s (cmdhist_next K cmd s) ∧ NavFrame K s (cmdhist_prev K cmd s) := by
  constructor
  · unfold cmdhist_next
    split_ifs with h1 h2 h3 h4 h5 h6
    · exact navFrame_fail K hE s cmd
    · exact navFrame_fail K hE s cmd
    · exact navFrame_fail K hE s cmd
    · exact navFrame_fail K hE s cmd
    · exact navFrame_ok K hE s _ h5
    · exact navFrame_fail K hE s cmd
    · exact navFrame_ok K hE s _ h6
  · unfold cmdhist_prev
    split_ifs with h1 h2 h3 h4
    · exact navFrame_fail K hE s cmd
    · exact navFrame_fail K hE s cmd
    · exact navFrame_fail K hE s cmd
    · exact navFrame_fail K hE s cmd
    · exact navFrame_ok K hE s _ h4

theorem cmdhist_nav_frame_witness :
    0 < sampleConfig.EINVAL ∧
    NavFrame sampleConfig fullRing (cmdhist_next sampleConfig (some none) fullRing) ∧
    NavFrame sampleConfig fullRing (cmdhist_prev sampleConfig (some none) fullRing) :=
  ⟨by decide, cmdhist_nav_frame sampleConfig (by decide) (some none) fullRing⟩

/-! ## Wraparound -/

/-- On a full ring whose rows all hold lines, `cmdhist_next` succeeds and moves the read cursor
one row down, from row 0 to the last row. -/
theorem next_full (K : Config) (M : List (List Nat)) (s : History)
    (hM : M.length = MAX_HIST) (hfit : ∀ l ∈ M, FitsSlot K l)
    (hrows : s.cmdhistory = M.map (storedRow K)) (hent : s.cmdhist_entries = MAX_HIST)
    (hread : s.cmdhist_read < MAX_HIST) :
    cmdhist_next K (some none) s =
      ⟨0, some (some ((s.cmdhist_read + 31) % MAX_HIST)),
        { s with cmdhist_read := (s.cmdhist_read + 31) % MAX_HIST }⟩ ∧
    recalled (cmdhist_next K (some none) s)
      = some (M.getD ((s.cmdhist_read + 31) % MAX_HIST) []) := by
  have hp : (s.cmdhist_read + 31) % MAX_HIST < M.length := by
    rw [hM]; exact Nat.mod_lt _ (by decide)
  have hrow : s.cmdhistory.getD ((s.cmdhist_read + 31) % MAX_HIST) []
      = storedRow K (M.getD ((s.cmdhist_read + 31) % MAX_HIST) []) := by
    have := getD_stored_rows K M [] _ hp
    rw [hrows]
    simpa using this
  have hl := fits_getD K M hfit _ hp
  have hstep : cmdhist_next K (some none) s =
      ⟨0, some (some ((s.cmdhist_read + 31) % MAX_HIST)),
        { s with cmdhist_read := (s.cmdhist_read + 31) % MAX_HIST }⟩ := by
    by_cases h0 : s.cmdhist_read = 0
    · have e : (s.cmdhist_read + 31) % MAX_HIST = MAX_HIST - 1 := by rw [h0]; rfl
      rw [e] at hrow hl ⊢
      exact next_wrap K s _ hent h0 hrow hl
    · have e : s.cmdhist_read = (s.cmdhist_read + 31) % MAX_HIST + 1 := by
        simp only [MAX_HIST] at hread ⊢
        omega
      exact next_step K s _ _ (by rw [hent]; decide) e hrow hl
  refine ⟨hstep, ?_⟩
  rw [hstep]
  exact recalled_of_row K _ _ _ 0 hrow hl

/-- On a full ring whose rows all hold lines, every call of `cmdhist_next` succeeds: the
`(i+1)`-th call hands back the line of the row `i + 1` places below the read cursor, counted
round the ring. -/
theorem nextN_full (K : Config) (M : List (List Nat))
    (hM : M.length = MAX_HIST) (hfit : ∀ l ∈ M, FitsSlot K l) (n : Nat) :
    ∀ s : History, s.cmdhistory = M.map (storedRow K) → s.cmdhist_entries = MAX_HIST →
      s.cmdhist_read < MAX_HIST →
      (nextN K n s).1 = (List.range n).map
        (fun i => ((0 : Int), some (M.getD ((s.cmdhist_read + 31 * (i + 1)) % MAX_HIST) []))) := by
  induction n with
  | zero => intro s _ _ _; rfl
  | succ n ih =>
    intro s hrows hent hread
    obtain ⟨hstep, hrec⟩ := next_full K M s hM hfit hrows hent hread
    have hrec2 := hrec
    rw [hstep] at hrec2
    rw [nextN_cons K n s _ hstep]
    have := ih { s with cmdhist_read := (s.cmdhist_read + 31) % MAX_HIST } hrows hent
      (Nat.mod_lt _ (by decide))
    simp only [this, hrec2, List.range_succ_eq_map, List.map_cons, List.map_map]
    congr 1
    apply List.map_congr_left
    intro i _
    simp only [Function.comp]
    have e : ((s.cmdhist_read + 31) % MAX_HIST + 31 * (i + 1)) % MAX_HIST
        = (s.cmdhist_read + 31 * (i + 1 + 1)) % MAX_HIST := by
      simp only [MAX_HIST]
      omega
    rw [e]

theorem pushAll_append_singleton (K : Config) (F : List (List Nat)) (z : List Nat)
    (s : History) :
    pushAll K (F ++ [z]) s = (cmdhist_push K (some z) (pushAll K F s)).2 := by
  simp [pushAll, List.foldl_append]

/-- The history after `MAX_HIST + 1` lines that fit have been pushed from the initial state: the
last line has replaced the first in row 0. -/
theorem pushAll_wrapped (K : Config) (a z : List Nat) (mid : List (List Nat))
    (hmid : mid.length = 31) (hfit : ∀ l ∈ a :: (mid ++ [z]), FitsSlot K l) :
    pushAll K (a :: (mid ++ [z])) (init_commands (zeroHistory K)) =
      { cmdhist_entries := MAX_HIST, cmdhist_read := 0, cmdhist_write := 1,
        cmdhistory := (z :: mid).map (storedRow K) } := by
  have hF : ∀ l ∈ a :: mid, FitsSlot K l := by
    intro l hl
    apply hfit
    simp only [List.mem_cons, List.mem_append] at hl ⊢
    tauto
  have hz : FitsSlot K z := hfit z (by simp)
  have hlen : (a :: mid).length = MAX_HIST := by simp [hmid]
  have e : a :: (mid ++ [z]) = (a :: mid) ++ [z] := by simp
  rw [e, pushAll_append_singleton, pushAll_init K (a :: mid) hF (le_of_eq hlen), hlen]
  simp only [Nat.mod_self, Nat.sub_self, List.replicate_zero, List.append_nil, List.map_cons]
  rw [push_accepted K z _ hz.1 hz.2.1 (le_of_lt hz.2.2)
    (by simp [storedRow_length K a (le_of_lt (hF a (by simp)).2.2)])]
  simp

/-- C7, at the input where the code departs from it: of `MAX_HIST + 1` distinct non-empty lines
the last is longer than `MAX_COMMANDLINE_LENGTH` and `cmdhist_push` rejects it, so that the
first-pushed line stays in the ring and the `MAX_HIST`-th call of `cmdhist_next` returns it. -/
theorem cmdhist_overlong_line_keeps_oldest :
    overlongLines.length = MAX_HIST + 1 ∧ overlongLines.Nodup ∧
    (∀ l ∈ overlongLines, l ≠ [] ∧ ∀ b ∈ l, b ≠ 0) ∧
    overlongLines.head? = some [65] ∧
    (nextN sampleConfig MAX_HIST
        (cmdhist_reset (pushAll sampleConfig overlongLines sampleInit)).2).1.getLast?
      = some (0, some [65]) := by
  set_option maxRecDepth 100000 in decide

/-- C7, amended: from the initial state on a cleared history, after `MAX_HIST + 1` distinct
non-empty lines that each fit a history row with their terminator have been pushed and the read
cursor has been reset, every call of `cmdhist_next` returns 0 and hands back one of the
`MAX_HIST` most recently pushed lines, never the first-pushed line, and each of the `MAX_HIST`
most recently pushed lines is handed back by one of the first `MAX_HIST` calls. -/
theorem cmdhist_wraparound (K : Config) (lines : List (List Nat))
    (hlen : lines.length = MAX_HIST + 1) (hnd : lines.Nodup)
    (hfit : ∀ l ∈ lines, FitsSlot K l) :
    (∀ m, ∀ x ∈ (nextN K m
        (cmdhist_reset (pushAll K lines (init_commands (zeroHistory K)))).2).1,
      x.1 = 0 ∧ ∃ l ∈ lines.tail, x.2 = some l ∧ some l ≠ lines.head?) ∧
    (∀ l ∈ lines.tail, ((0 : Int), some l) ∈ (nextN K MAX_HIST
        (cmdhist_reset (pushAll K lines (init_commands (zeroHistory K)))).2).1) := by
  obtain ⟨a, rest, rfl⟩ : ∃ a rest, lines = a :: rest := by
    cases lines with
    | nil => simp at hlen
    | cons a rest => exact ⟨a, rest, rfl⟩
  have hrest : rest.length = MAX_HIST := by simpa using hlen
  obtain ⟨mid, z, rfl⟩ : ∃ mid z, rest = mid ++ [z] := by
    rcases List.eq_nil_or_concat rest with h | ⟨mid, z, h⟩
    · rw [h] at hrest; simp at hrest
    · exact ⟨mid, z, by simpa using h⟩
  have hmid : mid.length = 31 := by
    simp only [List.length_append, List.length_singleton, MAX_HIST] at hrest
    omega
  have hM : (z :: mid).length = MAX_HIST := by simp [hmid]
  have hfitM : ∀ l ∈ z :: mid, FitsSlot K l := by
    intro l hl
    apply hfit
    simp only [List.mem_cons, List.mem_append, List.mem_singleton] at hl ⊢
    tauto
  have hnot : a ∉ mid ++ [z] := (List.nodup_cons.mp hnd).1
  have hres := fun m => nextN_full K (z :: mid) hM hfitM m
    { cmdhist_entries := MAX_HIST, cmdhist_read := 1, cmdhist_write := 1,
      cmdhistory := (z :: mid).map (storedRow K) } rfl rfl (by simp)
  rw [pushAll_wrapped K a z mid hmid hfit]
  simp only [cmdhist_reset, List.tail_cons, List.head?_cons]
  constructor
  · intro m x hx
    rw [hres m] at hx
    obtain ⟨i, _, rfl⟩ := List.mem_map.mp hx
    have hp : (1 + 31 * (i + 1)) % MAX_HIST < (z :: mid).length := by
      rw [hM]; exact Nat.mod_lt _ (by decide)
    have hmem : (z :: mid).getD ((1 + 31 * (i + 1)) % MAX_HIST) [] ∈ z :: mid := by
      rw [List.getD_eq_getElem _ _ hp]
      exact List.getElem_mem hp
    have hmem2 : (z :: mid).getD ((1 + 31 * (i + 1)) % MAX_HIST) [] ∈ mid ++ [z] := by
      simp only [List.mem_cons, List.mem_append, List.mem_singleton] at hmem ⊢
      tauto
    refine ⟨rfl, _, hmem2, rfl, ?_⟩
    intro h
    have h2 := Option.some.inj h
    rw [h2] at hmem2
    exact hnot hmem2
  · intro l hl
    have hlM : l ∈ z :: mid := by
      simp only [List.mem_cons, List.mem_append, List.mem_singleton] at hl ⊢
      tauto
    obtain ⟨i, hi, rfl⟩ := List.getElem_of_mem hlM
    rw [hres MAX_HIST]
    refine List.mem_map.mpr ⟨(32 - i) % 32, ?_, ?_⟩
    · exact List.mem_range.mpr (Nat.mod_lt _ (by decide))
    · have hi32 : i < 32 := by rw [hM] at hi; exact hi
      have e : (1 + 31 * ((32 - i) % 32 + 1)) % MAX_HIST = i := by
        simp only [MAX_HIST]
        omega
      simp only [e]
      rw [List.getD_eq_getElem _ _ hi]

theorem cmdhist_wraparound_witness :
    (sampleLines 33).length = MAX_HIST + 1 ∧ (sampleLines 33).Nodup ∧
    (∀ l ∈ sampleLines 33, FitsSlot sampleConfig l) ∧
    (∀ m, ∀ x ∈ (nextN sampleConfig m
        (cmdhist_reset (pushAll sampleConfig (sampleLines 33)
          (init_commands (zeroHistory sampleConfig)))).2).1,
      x.1 = 0 ∧ ∃ l ∈ (sampleLines 33).tail, x.2 = some l ∧ some l ≠ (sampleLines 33).head?) ∧
    (∀ l ∈ (sampleLines 33).tail, ((0 : Int), some l) ∈ (nextN sampleConfig MAX_HIST
        (cmdhist_reset (pushAll sampleConfig (sampleLines 33)
          (init_commands (zeroHistory sampleConfig)))).2).1) :=
  ⟨by decide, by decide, by decide,
    cmdhist_wraparound sampleConfig (sampleLines 33) (by decide) (by decide) (by decide)⟩

/-! ## Tokenizer -/

theorem tabsToSpaces_line (line tl : List Nat) (hnul : ∀ b ∈ line, b ≠ 0) :
    tabsToSpaces (line ++ 0 :: tl)
      = line.map (fun b => if b = 9 then 32 else b) ++ 0 :: tl := by
  induction line with
  | nil => simp [tabsToSpaces]
  | cons a l ih =>
    have ha : a ≠ 0 := hnul a (by simp)
    have hl : ∀ b ∈ l, b ≠ 0 := fun b hb => hnul b (by simp [hb])
    simp [tabsToSpaces, ha, ih hl]

theorem spacePieces_nil : spacePieces [] = [[]] := rfl

theorem spacePieces_space (l : List Nat) : spacePieces (32 :: l) = [] :: spacePieces l := by
  simp [spacePieces, List.splitOnP_cons]

theorem spacePieces_ne_nil (l : List Nat) : spacePieces l ≠ [] := by
  induction l with
  | nil => simp [spacePieces_nil]
  | cons b l ih =>
    by_cases hb : b = 32
    · subst hb; simp [spacePieces_space]
    · unfold spacePieces at ih ⊢
      rw [List.splitOnP_cons]
      simp only [hb, decide_False, Bool.false_eq_true, if_false]
      cases h : List.splitOnP (fun b => decide (b = 32)) l with
      | nil => exact absurd h ih
      | cons x xs => simp [List.modifyHead]

theorem spacePieces_cons (b : Nat) (l : List Nat) (hb : b ≠ 32) :
    spacePieces (b :: l) = (b :: (spacePieces l).headD []) :: (spacePieces l).tail := by
  have hne := spacePieces_ne_nil l
  unfold spacePieces at hne ⊢
  rw [List.splitOnP_cons]
  simp only [hb, decide_False, Bool.false_eq_true, if_false]
  cases h : List.splitOnP (fun b => decide (b = 32)) l with
  | nil => exact absurd h hne
  | cons x xs => simp [List.modifyHead]

/-- Turning tabs into spaces and cutting at spaces gives the pieces between blanks. -/
theorem spacePieces_map (line : List Nat) :
    spacePieces (line.map (fun b => if b = 9 then 32 else b))
      = line.splitOnP (fun b => b = 32 || b = 9) := by
  induction line with
  | nil => rfl
  | cons a l ih =>
    rw [List.map_cons, List.splitOnP_cons]
    by_cases h9 : a = 9
    · subst h9
      simp only [if_true, spacePieces_space, ih]
      simp
    · by_cases h32 : a = 32
      · subst h32
        simp [spacePieces_space, ih]
      · simp only [h9, if_false]
        rw [spacePieces_cons a _ h32, ih]
        have hne : l.splitOnP (fun b => b = 32 || b = 9) ≠ [] := List.splitOnP_ne_nil _ _
        cases h : l.splitOnP (fun b => b = 32 || b = 9) with
        | nil => exact absurd h hne
        | cons x xs => simp [h9, h32, List.modifyHead]

theorem readAll_shift (c : Nat) (buf offs : List Nat) :
    readAll (c :: buf) (offs.map (fun o => o + 1)) = readAll buf offs := by
  simp [readAll, List.map_map, Function.comp]

theorem offs_shift (offs : List Nat) (n : Nat) :
    (offs.map (fun o => o + 1)).map (fun o => o + n) = offs.map (fun o => o + (n + 1)) := by
  rw [List.map_map]
  apply List.map_congr_left
  intro o _
  simp only [Function.comp]
  omega

theorem wordLoop_cons (M : Nat) (done : List Nat) (b : Nat) (rest : List Nat) (state : Nat)
    (argv : List Nat) :
    wordLoop M done (b :: rest) state argv =
      if b = 0 then some ⟨done ++ b :: rest, argv.length, argv⟩
      else if state = STATE_WHITESPACE then
        if b ≠ 32 then
          if argv.length < M then
            wordLoop M (done ++ [b]) rest STATE_WORD (argv ++ [done.length])
          else none
        else wordLoop M (done ++ [b]) rest state argv
      else
        if b = 32 then wordLoop M (done ++ [0]) rest STATE_WHITESPACE argv
        else wordLoop M (done ++ [b]) rest state argv := by
  rw [wordLoop]

/-- The second loop of `parse_args` on a line without NUL byte, from either state: it succeeds
while `argv` has room, leaves the bytes before `c` alone, and the strings at the offsets it
stores are the non-empty pieces between spaces; in the word state the string at `c` is the rest
of the current word. -/
theorem wordLoop_spec (M : Nat) (tl : List Nat) (l : List Nat) (hnul : ∀ b ∈ l, b ≠ 0) :
    ∀ (done argv : List Nat),
      (argv.length + ((spacePieces l).filter (fun w => w ≠ [])).length ≤ M →
        ∃ buf offs, wordLoop M done (l ++ 0 :: tl) STATE_WHITESPACE argv
            = some ⟨done ++ buf, (argv ++ offs.map (fun o => o + done.length)).length,
                argv ++ offs.map (fun o => o + done.length)⟩ ∧
          readAll buf offs = (spacePieces l).filter (fun w => w ≠ [])) ∧
      (argv.length + ((spacePieces l).tail.filter (fun w => w ≠ [])).length ≤ M →
        ∃ buf offs, wordLoop M done (l ++ 0 :: tl) STATE_WORD argv
            = some ⟨done ++ buf, (argv ++ offs.map (fun o => o + done.length)).length,
                argv ++ offs.map (fun o => o + done.length)⟩ ∧
          cstring buf = (spacePieces l).headD [] ∧
          readAll buf offs = (spacePieces l).tail.filter (fun w => w ≠ [])) := by
  induction l with
  | nil =>
    intro done argv
    constructor
    · intro _
      exact ⟨0 :: tl, [], by simp [wordLoop], by simp [readAll, spacePieces_nil]⟩
    · intro _
      exact ⟨0 :: tl, [], by simp [wordLoop], by simp [cstring_cons_zero, spacePieces_nil],
        by simp [readAll, spacePieces_nil]⟩
  | cons b l ih =>
    have hb : b ≠ 0 := hnul b (by simp)
    have hl : ∀ x ∈ l, x ≠ 0 := fun x hx => hnul x (by simp [hx])
    have ih2 := ih hl
    intro done argv
    by_cases h32 : b = 32
    · -- a space: skipped in the whitespace state, overwritten by NUL in the word state
      subst h32
      rw [spacePieces_space]
      constructor
      · intro hroom
        obtain ⟨buf, offs, hrun, hread⟩ := (ih2 (done ++ [32]) argv).1 (by simpa using hroom)
        refine ⟨32 :: buf, offs.map (fun o => o + 1), ?_, ?_⟩
        · rw [List.cons_append, wordLoop_cons]
          simp only [OfNat.ofNat_ne_zero, if_false, if_true, ne_eq, not_true_eq_false]
          rw [hrun, offs_shift]
          simp
        · rw [readAll_shift, hread]; simp
      · intro hroom
        obtain ⟨buf, offs, hrun, hread⟩ := (ih2 (done ++ [0]) argv).1 (by simpa using hroom)
        refine ⟨0 :: buf, offs.map (fun o => o + 1), ?_, ?_, ?_⟩
        · rw [List.cons_append, wordLoop_cons]
          simp only [OfNat.ofNat_ne_zero, if_false, if_true, one_ne_zero]
          rw [hrun, offs_shift]
          simp
        · simp [cstring_cons_zero]
        · rw [readAll_shift, hread]; simp
    · -- a byte of a word
      rw [spacePieces_cons b l h32]
      constructor
      · intro hroom
        have hroom2 : (argv ++ [done.length]).length
            + ((spacePieces l).tail.filter (fun w => w ≠ [])).length ≤ M := by
          simp at hroom ⊢; omega
        have hlt : argv.length < M := by simp at hroom; omega
        obtain ⟨buf, offs, hrun, hhead, hread⟩ :=
          (ih2 (done ++ [b]) (argv ++ [done.length])).2 hroom2
        refine ⟨b :: buf, 0 :: offs.map (fun o => o + 1), ?_, ?_⟩
        · rw [List.cons_append, wordLoop_cons]
          simp only [hb, h32, hlt, if_false, if_true, ne_eq, not_false_eq_true]
          rw [hrun]
          simp only [List.map_cons, offs_shift]
          simp
        · have h0 : readAll (b :: buf) (0 :: offs.map (fun o => o + 1))
              = cstring (b :: buf) :: readAll (b :: buf) (offs.map (fun o => o + 1)) := by
            simp [readAll]
          rw [h0, readAll_shift, hread, cstring_cons_ne hb, hhead]
          simp
      · intro hroom
        obtain ⟨buf, offs, hrun, hhead, hread⟩ :=
          (ih2 (done ++ [b]) argv).2 (by simpa using hroom)
        refine ⟨b :: buf, offs.map (fun o => o + 1), ?_, ?_, ?_⟩
        · rw [List.cons_append, wordLoop_cons]
          simp only [hb, h32, if_false, one_ne_zero]
          rw [hrun, offs_shift]
          simp
        · rw [cstring_cons_ne hb, hhead]; simp
        · rw [readAll_shift, hread]; simp

theorem wordsOf_nil : wordsOf [] = [] := by
  simp [wordsOf]

theorem wordsOf_blank (line : List Nat) (h : ∀ b ∈ line, b = 32 ∨ b = 9) : wordsOf line = [] := by
  induction line with
  | nil => exact wordsOf_nil
  | cons a l ih =>
    have ha : a = 32 ∨ a = 9 := h a (by simp)
    have hl : ∀ b ∈ l, b = 32 ∨ b = 9 := fun b hb => h b (by simp [hb])
    have ih2 := ih hl
    unfold wordsOf at ih2 ⊢
    rw [List.splitOnP_cons]
    have hp : (decide (a = 32) || decide (a = 9)) = true := by
      rcases ha with h1 | h1 <;> simp [h1]
    simp only [hp, if_true]
    simpa using ih2

/-- `parse_args` on a NUL-terminated line whose words fit into `argv`: it succeeds, `argc` is the
number of words and the strings at `argv[0..argc-1]` are the words in order. -/
theorem parse_args_spec (K : Config) (line tl : List Nat) (hnul : ∀ b ∈ line, b ≠ 0)
    (hroom : (wordsOf line).length ≤ K.MAX_ARGS) :
    ∃ a, parse_args K (line ++ 0 :: tl) = some a ∧ a.argc = (wordsOf line).length ∧
      a.argv.length = a.argc ∧ argStrings a = wordsOf line := by
  by_cases h0 : line = []
  · subst h0
    refine ⟨⟨0 :: tl, 0, []⟩, ?_, ?_, rfl, ?_⟩
    · simp [parse_args, _strlen]
    · simp [wordsOf_nil]
    · simp [argStrings, wordsOf_nil]
  · have hlen : _strlen (line ++ 0 :: tl) ≠ 0 := by
      rw [strlen_eq_length_cstring, cstring_append_nul line tl hnul]
      intro h; exact h0 (List.length_eq_zero.mp h)
    have hmapnul : ∀ b ∈ line.map (fun b => if b = 9 then 32 else b), b ≠ 0 := by
      intro b hb
      obtain ⟨c, hc, rfl⟩ := List.mem_map.mp hb
      have := hnul c hc
      by_cases h9 : c = 9 <;> simp [h9, this]
    have hw : (spacePieces (line.map (fun b => if b = 9 then 32 else b))).filter
        (fun w => w ≠ []) = wordsOf line := by
      rw [spacePieces_map]; rfl
    obtain ⟨buf, offs, hrun, hread⟩ :=
      (wordLoop_spec K.MAX_ARGS tl _ hmapnul [] []).1 (by rw [hw]; simpa using hroom)
    have hoffs : offs.map (fun o => o + ([] : List Nat).length) = offs := by simp
    rw [hoffs] at hrun
    simp only [List.nil_append] at hrun
    refine ⟨⟨buf, offs.length, offs⟩, ?_, ?_, rfl, ?_⟩
    · simp only [parse_args, hlen, if_false]
      rw [tabsToSpaces_line line tl hnul]
      exact hrun
    · have := congrArg List.length hread
      rw [hw] at this
      simpa [readAll] using this
    · rw [← hw, ← hread]; rfl

/-- C3: for every line without NUL byte that has at most `MAX_ARGS` words, `parse_args` sets
`argc` to the number of maximal runs of bytes that are neither space nor tab, and `argv[0]`, ...,
`argv[argc-1]` read back as those runs from left to right; `argc` is 0 for the empty line and
for every line made of spaces and tabs only; the line `a  b` gives `argc = 2` and the strings
`a`, `b`. -/
theorem parse_args_words (K : Config) (line tl : List Nat) (hnul : ∀ b ∈ line, b ≠ 0) :
    ((wordsOf line).length ≤ K.MAX_ARGS →
      ∃ a, parse_args K (line ++ 0 :: tl) = some a ∧ a.argc = (wordsOf line).length ∧
        a.argv.length = a.argc ∧ argStrings a = wordsOf line) ∧
    ((∀ b ∈ line, b = 32 ∨ b = 9) →
      ∃ a, parse_args K (line ++ 0 :: tl) = some a ∧ a.argc = 0) ∧
    (2 ≤ K.MAX_ARGS →
      ∃ a, parse_args K ([97, 32, 32, 98] ++ 0 :: tl) = some a ∧ a.argc = 2 ∧
        argStrings a = [[97], [98]]) := by
  refine ⟨?_, ?_, ?_⟩
  · intro hroom
    exact parse_args_spec K line tl hnul hroom
  · intro hblank
    have hw := wordsOf_blank line hblank
    obtain ⟨a, ha, hc, _, _⟩ := parse_args_spec K line tl hnul (by rw [hw]; simp)
    exact ⟨a, ha, by rw [hc, hw]; rfl⟩
  · intro h2
    have hw : wordsOf [97, 32, 32, 98] = [[97], [98]] := by decide
    obtain ⟨a, ha, hc, _, hs⟩ := parse_args_spec K [97, 32, 32, 98] tl (by decide)
      (by rw [hw]; exact h2)
    exact ⟨a, ha, by rw [hc, hw]; rfl, by rw [hs, hw]⟩

theorem parse_args_words_witness :
    ((∀ b ∈ [97, 32, 32, 98], b ≠ 0) ∧ (wordsOf [97, 32, 32, 98]).length ≤ sampleConfig.MAX_ARGS ∧
      wordsOf [97, 32, 32, 98] = [[97], [98]] ∧
      ∃ a, parse_args sampleConfig ([97, 32, 32, 98] ++ 0 :: []) = some a ∧
        a.argc = (wordsOf [97, 32, 32, 98]).length ∧
        a.argv.length = a.argc ∧ argStrings a = wordsOf [97, 32, 32, 98]) ∧
    ((∀ b ∈ [32, 9, 32], b ≠ 0) ∧ (∀ b ∈ [32, 9, 32], b = 32 ∨ b = 9) ∧
      ∃ a, parse_args sampleConfig ([32, 9, 32] ++ 0 :: []) = some a ∧ a.argc = 0) ∧
    ((∀ b ∈ ([] : List Nat), b = 32 ∨ b = 9) ∧
      ∃ a, parse_args sampleConfig ([] ++ 0 :: []) = some a ∧ a.argc = 0) ∧
    (2 ≤ sampleConfig.MAX_ARGS ∧
      ∃ a, parse_args sampleConfig ([97, 32, 32, 98] ++ 0 :: []) = some a ∧ a.argc = 2 ∧
        argStrings a = [[97], [98]]) :=
  ⟨⟨by decide, by decide, by decide,
      (parse_args_words sampleConfig [97, 32, 32, 98] [] (by decide)).1 (by decide)⟩,
    ⟨by decide, by decide,
      (parse_args_words sampleConfig [32, 9, 32] [] (by decide)).2.1 (by decide)⟩,
    ⟨by decide, (parse_args_words sampleConfig [] [] (by decide)).2.1 (by decide)⟩,
    ⟨by decide, (parse_args_words sampleConfig [] [] (by decide)).2.2 (by decide)⟩⟩

/-! ## Dispatcher -/

/-- Comparing a name with a typed word over the length of the word gives 0 exactly when the
word is a leading substring of the name. -/
theorem strncmp_eq_zero_iff (s2 : List Nat) :
    ∀ s1 : List Nat, _strncmp s1 s2 (cstring s2).length = 0 ↔
      (cstring s2).isPrefixOf (cstring s1) = true := by
  induction s2 with
  | nil => intro s1; simp [cstring_nil, _strncmp]
  | cons b r ih =>
    intro s1
    by_cases hb : b = 0
    · subst hb; simp [cstring_cons_zero, _strncmp]
    · rw [cstring_cons_ne hb, List.length_cons, _strncmp]
      cases s1 with
      | nil =>
        have : (0 : Int) - (b : Int) ≠ 0 := by omega
        simp [cstring_nil, Ne.symm hb, this, hb]
      | cons a q =>
        by_cases hab : a = b
        · subst hab
          simp [cstring_cons_ne hb, hb, ih q]
        · have hd : (a : Int) - (b : Int) ≠ 0 := by omega
          by_cases ha : a = 0
          · subst ha
            simp [cstring_cons_zero, hab, hd, hb]
          · simp [cstring_cons_ne ha, hab, hd, Ne.symm hab]

theorem matchLoop_count (K : Config) (cmdline : List Nat) (commands : List commandlist_t)
    (hmagic : ∀ c ∈ commands, c.magic = K.COMMAND_MAGIC) :
    ∀ n : Int, matchLoop K cmdline (_strlen cmdline) commands n
      = n + (commands.countP (nameMatches (cstring cmdline)) : Int) := by
  induction commands with
  | nil => intro n; simp [matchLoop]
  | cons c cs ih =>
    intro n
    have hc : c.magic = K.COMMAND_MAGIC := hmagic c (by simp)
    have hcs : ∀ x ∈ cs, x.magic = K.COMMAND_MAGIC := fun x hx => hmagic x (by simp [hx])
    have hiff := strncmp_eq_zero_iff cmdline c.name
    rw [← strlen_eq_length_cstring] at hiff
    by_cases hm : nameMatches (cstring cmdline) c = true
    · have h0 : _strncmp c.name cmdline (_strlen cmdline) = 0 := hiff.mpr hm
      simp only [matchLoop, hc, ne_eq, not_true_eq_false, if_false, h0, if_true]
      rw [ih hcs, List.countP_cons_of_pos _ _ hm]
      push_cast
      ring
    · have h0 : ¬ _strncmp c.name cmdline (_strlen cmdline) = 0 := fun h => hm (hiff.mp h)
      simp only [matchLoop, hc, ne_eq, not_true_eq_false, if_false, h0]
      rw [ih hcs, List.countP_cons_of_neg _ _ hm]

theorem matchLoop_bad_magic (K : Config) (cmdline : List Nat) (len : Nat)
    (commands : List commandlist_t) (hbad : ∃ c ∈ commands, c.magic ≠ K.COMMAND_MAGIC) :
    ∀ n : Int, matchLoop K cmdline len commands n = -(K.EMAGIC : Int) := by
  induction commands with
  | nil => obtain ⟨c, hc, _⟩ := hbad; simp at hc
  | cons c cs ih =>
    intro n
    by_cases hc : c.magic = K.COMMAND_MAGIC
    · have hbad2 : ∃ x ∈ cs, x.magic ≠ K.COMMAND_MAGIC := by
        obtain ⟨x, hx, hxm⟩ := hbad
        rcases List.mem_cons.mp hx with h | h
        · rw [h] at hxm; exact absurd hc hxm
        · exact ⟨x, h, hxm⟩
      simp only [matchLoop, hc, ne_eq, not_true_eq_false, if_false]
      split_ifs
      · exact ih hbad2 _
      · exact ih hbad2 _
    · simp [matchLoop, hc]

theorem callLoop_first (K : Config) (a : ArgResult) (commands : List commandlist_t)
    (hmagic : ∀ c ∈ commands, c.magic = K.COMMAND_MAGIC) (cmd : commandlist_t)
    (rest : List commandlist_t)
    (hf : commands.filter (nameMatches (cstring (a.cmdline.drop (a.argv.getD 0 0))))
      = cmd :: rest) :
    callLoop K a (_strlen (a.cmdline.drop (a.argv.getD 0 0))) commands
      = ⟨cmd.callback a.argc (argStrings a), [⟨cmd.name, a.argc, argStrings a⟩]⟩ := by
  induction commands with
  | nil => simp at hf
  | cons c cs ih =>
    have hc : c.magic = K.COMMAND_MAGIC := hmagic c (by simp)
    have hcs : ∀ x ∈ cs, x.magic = K.COMMAND_MAGIC := fun x hx => hmagic x (by simp [hx])
    have hiff := strncmp_eq_zero_iff (a.cmdline.drop (a.argv.getD 0 0)) c.name
    rw [← strlen_eq_length_cstring] at hiff
    by_cases hm : nameMatches (cstring (a.cmdline.drop (a.argv.getD 0 0))) c = true
    · rw [List.filter_cons_of_pos hm] at hf
      have hcmd : c = cmd := (List.cons.inj hf).1
      subst hcmd
      simp only [callLoop, hc, ne_eq, not_true_eq_false, if_false, hiff.mpr hm, if_true]
    · rw [List.filter_cons_of_neg hm] at hf
      have h0 : ¬ _strncmp c.name (a.cmdline.drop (a.argv.getD 0 0))
          (_strlen (a.cmdline.drop (a.argv.getD 0 0))) = 0 := fun h => hm (hiff.mp h)
      simp only [callLoop, hc, ne_eq, not_true_eq_false, if_false, h0]
      exact ih hcs hf

/-- The string at `argv[0]` after `parse_args` is the first of the `argv` strings. -/
theorem arg0_of_argStrings (a : ArgResult) (p : List Nat) (rest : List (List Nat))
    (h : argStrings a = p :: rest) : cstring (a.cmdline.drop (a.argv.getD 0 0)) = p := by
  unfold argStrings at h
  cases hargv : a.argv with
  | nil => rw [hargv] at h; simp at h
  | cons o os =>
    rw [hargv] at h
    simp only [List.map_cons, List.cons.injEq] at h
    simpa using h.1

/-- C1, at an input where the code departs from it: a line of seventeen words whose first word
`res` is a leading substring of exactly one registered name.  `parse_args` has no test of `i`
against `MAX_ARGS` and stores the seventeenth pointer past the end of `argv`; `parse_command`
does not come to call the callback of `reset` with the tokenized arguments. -/
theorem parse_command_too_many_words :
    (∀ c ∈ sampleRegistry, c.magic = sampleConfig.COMMAND_MAGIC) ∧
    (∀ b ∈ manyWordsLine, b ≠ 0) ∧
    (wordsOf manyWordsLine).head? = some [114, 101, 115] ∧
    (wordsOf manyWordsLine).length = sampleConfig.MAX_ARGS + 1 ∧
    sampleRegistry.countP (nameMatches [114, 101, 115]) = 1 ∧
    parse_args sampleConfig (manyWordsLine ++ [0]) = none ∧
    parse_command sampleConfig sampleRegistry (manyWordsLine ++ [0]) = none ∧
    parse_command sampleConfig sampleRegistry (manyWordsLine ++ [0])
      ≠ some ⟨sampleReset.callback 17 (wordsOf manyWordsLine),
          [⟨sampleReset.name, 17, wordsOf manyWordsLine⟩]⟩ := by
  set_option maxRecDepth 100000 in decide

/-- C1, amended: for every registry whose descriptors all carry `COMMAND_MAGIC` and every line of
at most `MAX_ARGS` words whose first word is `p`: if exactly one registered name has `p` as a
leading substring, `parse_command` calls the callback of that descriptor with the tokenized
`argc` and `argv` and returns its result; if no registered name has, it returns `-ECOMMAND`; if
two or more have, it returns `-EAMBIGCMD`; in the last two cases no callback is called. -/
theorem parse_command_dispatch (K : Config) (commands : List commandlist_t)
    (line tl p : List Nat) (rest : List (List Nat))
    (hmagic : ∀ c ∈ commands, c.magic = K.COMMAND_MAGIC) (hnul : ∀ b ∈ line, b ≠ 0)
    (hwords : wordsOf line = p :: rest) (hroom : (wordsOf line).length ≤ K.MAX_ARGS) :
    (commands.countP (nameMatches p) = 1 → ∀ cmd ∈ commands, nameMatches p cmd = true →
      parse_command K commands (line ++ 0 :: tl)
        = some ⟨cmd.callback (rest.length + 1) (p :: rest),
            [⟨cmd.name, rest.length + 1, p :: rest⟩]⟩) ∧
    (commands.countP (nameMatches p) = 0 →
      parse_command K commands (line ++ 0 :: tl) = some ⟨-(K.ECOMMAND : Int), []⟩) ∧
    (2 ≤ commands.countP (nameMatches p) →
      parse_command K commands (line ++ 0 :: tl) = some ⟨-(K.EAMBIGCMD : Int), []⟩) := by
  obtain ⟨a, hparse, hargc, _, hstr⟩ := parse_args_spec K line tl hnul hroom
  rw [hwords] at hstr hargc
  have hargc1 : a.argc = rest.length + 1 := by simpa using hargc
  have harg0 := arg0_of_argStrings a p rest hstr
  have hcount : get_num_command_matches K commands (a.cmdline.drop (a.argv.getD 0 0))
      = (commands.countP (nameMatches p) : Int) := by
    unfold get_num_command_matches
    rw [matchLoop_count K _ commands hmagic 0, harg0]
    simp
  have hne : a.argc ≠ 0 := by omega
  refine ⟨?_, ?_, ?_⟩
  · intro h1 cmd hcmd hm
    have hfilter : commands.filter (nameMatches p) = [cmd] := by
      have hlen : (commands.filter (nameMatches p)).length = 1 := by
        rw [← List.countP_eq_length_filter]; exact h1
      obtain ⟨c, hc⟩ := List.length_eq_one.mp hlen
      have hin : cmd ∈ commands.filter (nameMatches p) := List.mem_filter.mpr ⟨hcmd, hm⟩
      rw [hc] at hin ⊢
      rw [List.mem_singleton.mp hin]
    have hcall := callLoop_first K a commands hmagic cmd [] (by rw [harg0]; exact hfilter)
    simp only [parse_command, hparse, hne, if_false, hcount, h1]
    rw [hcall, hstr, hargc1]
    simp
  · intro h0
    simp only [parse_command, hparse, hne, if_false, hcount, h0]
    simp
  · intro h2
    simp only [parse_command, hparse, hne, if_false, hcount]
    have hpos : ¬ ((commands.countP (nameMatches p) : Int) < 0) := by omega
    have hnz : ¬ ((commands.countP (nameMatches p) : Int) = 0) := by omega
    have hgt : ((commands.countP (nameMatches p) : Int) > 1) := by omega
    simp only [hpos, hnz, hgt, if_false, if_true]

theorem parse_command_dispatch_witness :
    (∀ c ∈ sampleRegistry, c.magic = sampleConfig.COMMAND_MAGIC) ∧
    ((∀ b ∈ [114, 101, 115], b ≠ 0) ∧ wordsOf [114, 101, 115] = [[114, 101, 115]] ∧
      (wordsOf [114, 101, 115]).length ≤ sampleConfig.MAX_ARGS ∧
      sampleRegistry.countP (nameMatches [114, 101, 115]) = 1 ∧
      nameMatches [114, 101, 115] sampleReset = true ∧
      parse_command sampleConfig sampleRegistry ([114, 101, 115] ++ 0 :: [])
        = some ⟨sampleReset.callback 1 [[114, 101, 115]],
            [⟨sampleReset.name, 1, [[114, 101, 115]]⟩]⟩) ∧
    ((∀ b ∈ [120], b ≠ 0) ∧ wordsOf [120] = [[120]] ∧
      sampleRegistry.countP (nameMatches [120]) = 0 ∧
      parse_command sampleConfig sampleRegistry ([120] ++ 0 :: []) = some ⟨-2, []⟩) ∧
    ((∀ b ∈ [114, 101], b ≠ 0) ∧ wordsOf [114, 101] = [[114, 101]] ∧
      2 ≤ sampleRegistry.countP (nameMatches [114, 101]) ∧
      parse_command sampleConfig sampleRegistry ([114, 101] ++ 0 :: []) = some ⟨-3, []⟩) :=
  ⟨by decide,
    ⟨by decide, by decide, by decide, by decide, by decide,
      (parse_command_dispatch sampleConfig sampleRegistry [114, 101, 115] [] [114, 101, 115] []
        (by decide) (by decide) (by decide) (by decide)).1 (by decide) sampleReset
        (List.mem_cons_self _ _) (by decide)⟩,
    ⟨by decide, by decide, by decide,
      (parse_command_dispatch sampleConfig sampleRegistry [120] [] [120] []
        (by decide) (by decide) (by decide) (by decide)).2.1 (by decide)⟩,
    ⟨by decide, by decide, by decide,
      (parse_command_dispatch sampleConfig sampleRegistry [114, 101] [] [114, 101] []
        (by decide) (by decide) (by decide) (by decide)).2.2 (by decide)⟩⟩

/-- C2, at an input where the code departs from it: on a registry with a wrong integrity tag, a
line of seventeen words makes `parse_args` store past the end of `argv` before the registry is
looked at; `parse_command` does not come to return `-EMAGIC`. -/
theorem parse_command_bad_magic_too_many_words :
    (∃ c ∈ corruptRegistry, c.magic ≠ sampleConfig.COMMAND_MAGIC) ∧
    (∀ b ∈ manyWordsLine, b ≠ 0) ∧ wordsOf manyWordsLine ≠ [] ∧
    (wordsOf manyWordsLine).length = sampleConfig.MAX_ARGS + 1 ∧
    parse_command sampleConfig corruptRegistry (manyWordsLine ++ [0]) = none ∧
    parse_command sampleConfig corruptRegistry (manyWordsLine ++ [0])
      ≠ some ⟨-(sampleConfig.EMAGIC : Int), []⟩ := by
  set_option maxRecDepth 100000 in decide

/-- C2, amended: for every registry in which a descriptor carries an integrity tag other than
`COMMAND_MAGIC`, `get_num_command_matches` returns `-EMAGIC` for every typed word, whatever
number of names the word matches, and for every line of at least one and at most `MAX_ARGS`
words `parse_command` returns `-EMAGIC` and calls no callback. -/
theorem parse_command_bad_magic (K : Config) (commands : List commandlist_t)
    (hE : 0 < K.EMAGIC) (hbad : ∃ c ∈ commands, c.magic ≠ K.COMMAND_MAGIC) :
    (∀ cmdline : List Nat, get_num_command_matches K commands cmdline = -(K.EMAGIC : Int)) ∧
    (∀ line tl : List Nat, (∀ b ∈ line, b ≠ 0) → wordsOf line ≠ [] →
      (wordsOf line).length ≤ K.MAX_ARGS →
      parse_command K commands (line ++ 0 :: tl) = some ⟨-(K.EMAGIC : Int), []⟩) := by
  have hcount : ∀ cmdline : List Nat,
      get_num_command_matches K commands cmdline = -(K.EMAGIC : Int) :=
    fun cmdline => matchLoop_bad_magic K cmdline _ commands hbad 0
  refine ⟨hcount, ?_⟩
  intro line tl hnul hne hroom
  obtain ⟨a, hparse, hargc, _, _⟩ := parse_args_spec K line tl hnul hroom
  have hlen : (wordsOf line).length ≠ 0 := fun h => hne (List.length_eq_zero.mp h)
  have hne2 : a.argc ≠ 0 := by omega
  have hneg : (-(K.EMAGIC : Int)) < 0 := by omega
  simp only [parse_command, hparse, hne2, if_false, hcount, hneg, if_true]

theorem parse_command_bad_magic_witness :
    0 < sampleConfig.EMAGIC ∧
    (∃ c ∈ corruptRegistry, c.magic ≠ sampleConfig.COMMAND_MAGIC) ∧
    (∀ b ∈ [114, 101, 115], b ≠ 0) ∧ wordsOf [114, 101, 115] ≠ [] ∧
    (wordsOf [114, 101, 115]).length ≤ sampleConfig.MAX_ARGS ∧
    get_num_command_matches sampleConfig corruptRegistry [114, 101, 115] = -4 ∧
    parse_command sampleConfig corruptRegistry ([114, 101, 115] ++ 0 :: []) = some ⟨-4, []⟩ :=
  ⟨by decide, by decide, by decide, by decide, by decide,
    (parse_command_bad_magic sampleConfig corruptRegistry (by decide) (by decide)).1
      [114, 101, 115],
    (parse_command_bad_magic sampleConfig corruptRegistry (by decide) (by decide)).2
      [114, 101, 115] [] (by decide) (by decide) (by decide)⟩

/-! ## Invariant of the history counters -/

theorem ringInv_init (s0 : History) : RingInv (init_commands s0) := by
  simp [RingInv, init_commands]

theorem ringInv_push (K : Config) (cmd : Option (List Nat)) (s : History) (h : RingInv s) :
    RingInv (cmdhist_push K cmd s).2 := by
  cases cmd with
  | none => simpa [cmdhist_push] using h
  | some c =>
    obtain ⟨he, hw, hr, hwe⟩ := h
    rcases push_counters K c s with h1 | ⟨h1, h2, h3⟩
    · rw [h1]; exact ⟨he, hw, hr, hwe⟩
    · simp only [RingInv, h1, h2, h3, MAX_HIST] at *
      refine ⟨?_, Nat.mod_lt _ (by decide), hr, ?_⟩
      · split_ifs <;> omega
      · split_ifs with hlt
        · intro h4
          have := hwe hlt
          omega
        · intro h4; omega

theorem next_counters (K : Config) (cmd : Option (Option Nat)) (s : History) :
    (cmdhist_next K cmd s).hist.cmdhist_entries = s.cmdhist_entries ∧
    (cmdhist_next K cmd s).hist.cmdhist_write = s.cmdhist_write ∧
    (cmdhist_next K cmd s).hist.cmdhistory = s.cmdhistory ∧
    ((cmdhist_next K cmd s).hist.cmdhist_read = s.cmdhist_read ∨
      (cmdhist_next K cmd s).hist.cmdhist_read = MAX_HIST - 1 ∨
      (cmdhist_next K cmd s).hist.cmdhist_read + 1 = s.cmdhist_read) := by
  unfold cmdhist_next
  split_ifs with h1 h2 h3 h4 h5 h6 <;> simp
  omega

theorem prev_counters (K : Config) (cmd : Option (Option Nat)) (s : History) :
    (cmdhist_prev K cmd s).hist.cmdhist_entries = s.cmdhist_entries ∧
    (cmdhist_prev K cmd s).hist.cmdhist_write = s.cmdhist_write ∧
    (cmdhist_prev K cmd s).hist.cmdhistory = s.cmdhistory ∧
    ((cmdhist_prev K cmd s).hist.cmdhist_read = s.cmdhist_read ∨
      (cmdhist_prev K cmd s).hist.cmdhist_read = (s.cmdhist_read + 1) % MAX_HIST) := by
  unfold cmdhist_prev
  split_ifs <;> simp

theorem ringInv_applyOp (K : Config) (op : HistOp) (s : History) (h : RingInv s) :
    RingInv (applyOp K s op) := by
  cases op with
  | push cmd => exact ringInv_push K cmd s h
  | reset =>
    obtain ⟨he, hw, _, hwe⟩ := h
    exact ⟨he, hw, hw, hwe⟩
  | next cmd =>
    obtain ⟨he, hw, hr, hwe⟩ := h
    obtain ⟨h1, h2, _, h4⟩ := next_counters K cmd s
    simp only [applyOp, RingInv, h1, h2, MAX_HIST] at *
    refine ⟨he, hw, ?_, hwe⟩
    omega
  | prev cmd =>
    obtain ⟨he, hw, hr, hwe⟩ := h
    obtain ⟨h1, h2, _, h4⟩ := prev_counters K cmd s
    simp only [applyOp, RingInv, h1, h2, MAX_HIST] at *
    refine ⟨he, hw, ?_, hwe⟩
    rcases h4 with h4 | h4
    · omega
    · rw [h4]; exact Nat.mod_lt _ (by decide)

theorem ringInv_runOps (K : Config) (ops : List HistOp) :
    ∀ s : History, RingInv s → RingInv (runOps K ops s) := by
  induction ops with
  | nil => intro s h; exact h
  | cons op ops ih =>
    intro s h
    exact ih (applyOp K s op) (ringInv_applyOp K op s h)

/-- C11: in every state reached from `init_commands` by calls of `cmdhist_push`,
`cmdhist_reset`, `cmdhist_next` and `cmdhist_prev`, `entries` is at most `MAX_HIST`, both cursors
are below `MAX_HIST`, and the write cursor equals `entries` while `entries` is below `MAX_HIST`;
once `entries` is `MAX_HIST` a push leaves it there. -/
theorem history_counters_invariant (K : Config) (s0 : History) (ops : List HistOp) :
    RingInv (runOps K ops (init_commands s0)) ∧
    ∀ cmd, (runOps K ops (init_commands s0)).cmdhist_entries = MAX_HIST →
      (cmdhist_push K cmd (runOps K ops (init_commands s0))).2.cmdhist_entries = MAX_HIST := by
  refine ⟨ringInv_runOps K ops _ (ringInv_init s0), ?_⟩
  intro cmd hfull
  cases cmd with
  | none => simpa [cmdhist_push] using hfull
  | some c =>
    rcases push_counters K c (runOps K ops (init_commands s0)) with h1 | ⟨_, h2, _⟩
    · rw [h1]; exact hfull
    · rw [h2, hfull]; simp

theorem history_counters_invariant_witness :
    RingInv (runOps sampleConfig [.push (some [97]), .reset, .next (some none)] fullRing) ∧
    (runOps sampleConfig [] (init_commands fullRing)).cmdhist_entries = 0 ∧
    RingInv (runOps sampleConfig
      ((sampleLines MAX_HIST).map (fun l => HistOp.push (some l))) (init_commands fullRing)) ∧
    ((runOps sampleConfig ((sampleLines MAX_HIST).map (fun l => HistOp.push (some l)))
        (init_commands fullRing)).cmdhist_entries = MAX_HIST ∧
      (cmdhist_push sampleConfig (some [97])
        (runOps sampleConfig ((sampleLines MAX_HIST).map (fun l => HistOp.push (some l)))
          (init_commands fullRing))).2.cmdhist_entries = MAX_HIST) :=
  ⟨by decide, by decide,
    (history_counters_invariant sampleConfig fullRing
      ((sampleLines MAX_HIST).map (fun l => HistOp.push (some l)))).1,
    by decide,
    (history_counters_invariant sampleConfig fullRing
      ((sampleLines MAX_HIST).map (fun l => HistOp.push (some l)))).2 (some [97]) (by decide)⟩

/-! ## What `init_commands` clears -/

theorem clearLoop_drop (i : Nat) :
    ∀ (h : List (List Nat)) (k : Nat), (clearLoop i h).drop (i + k) = h.drop (i + k) := by
  induction i with
  | zero => intro h k; rfl
  | succ i ih =>
    intro h k
    simp only [clearLoop]
    have e : i + 1 + k = i + (1 + k) := by omega
    rw [e, ih, ← e, drop_succ_set]

theorem clearLoop_length (i : Nat) :
    ∀ h : List (List Nat), (clearLoop i h).length = h.length := by
  induction i with
  | zero => intro h; rfl
  | succ i ih => intro h; simp [clearLoop, ih]

theorem clearLoop_rowsOK (K : Config) (i : Nat) :
    ∀ h : List (List Nat), RowsOK K h → RowsOK K (clearLoop i h) := by
  induction i with
  | zero => intro h hh; exact hh
  | succ i ih =>
    intro h hh
    simp only [clearLoop]
    apply ih
    by_cases hi : i < h.length
    · apply rowsOK_set K h hh
      rw [List.length_set, List.getD_eq_getElem _ _ hi]
      exact hh _ (List.getElem_mem hi)
    · rw [List.set_eq_of_length_le (by omega)]
      exact hh

/-- C14, at the input where the code departs from it: the loop of `init_commands` starts at
`i = MAX_HIST - 1` and decrements before it clears, so that the last row of `cmdhistory` is left
as it was; on a prior state whose last row holds a line, that row still holds a line after
`init_commands`. -/
theorem init_commands_keeps_last_row (s : History)
    (h : slotFirst s.cmdhistory (MAX_HIST - 1) ≠ 0) :
    slotMem (init_commands s).cmdhistory (MAX_HIST - 1) = slotMem s.cmdhistory (MAX_HIST - 1) ∧
    slotString (init_commands s).cmdhistory (MAX_HIST - 1) ≠ [] := by
  have hmem : slotMem (init_commands s).cmdhistory (MAX_HIST - 1)
      = slotMem s.cmdhistory (MAX_HIST - 1) := by
    have := clearLoop_drop (MAX_HIST - 1) s.cmdhistory 0
    simp only [Nat.add_zero] at this
    simp only [slotMem, init_commands, this]
  refine ⟨hmem, ?_⟩
  apply slotString_ne_nil
  unfold slotFirst at h ⊢
  rw [hmem]
  exact h

theorem init_commands_keeps_last_row_witness :
    slotFirst fullRing.cmdhistory (MAX_HIST - 1) ≠ 0 ∧
    slotString (init_commands fullRing).cmdhistory (MAX_HIST - 1) = [96] ∧
    slotMem (init_commands fullRing).cmdhistory (MAX_HIST - 1)
      = slotMem fullRing.cmdhistory (MAX_HIST - 1) ∧
    slotString (init_commands fullRing).cmdhistory (MAX_HIST - 1) ≠ [] :=
  ⟨by decide, by decide, init_commands_keeps_last_row fullRing (by decide)⟩

/-! ## One pass of the editor loop -/

theorem next_ret_ne_zero (K : Config) (cmd : Option (Option Nat)) (s : History)
    (h : (cmdhist_next K cmd s).ret ≠ 0) : (cmdhist_next K cmd s).hist = s := by
  unfold cmdhist_next at h ⊢
  split_ifs at h ⊢ <;> simp at h ⊢

theorem prev_ret_ne_zero (K : Config) (cmd : Option (Option Nat)) (s : History)
    (h : (cmdhist_prev K cmd s).ret ≠ 0) : (cmdhist_prev K cmd s).hist = s := by
  unfold cmdhist_prev at h ⊢
  split_ifs at h ⊢ <;> simp at h ⊢

theorem editorLoop_cons (K : Config) (keys : KeyCodes) (maxRead : Int) (st : Editor) (c : Int)
    (rest : List Int) :
    editorLoop K keys maxRead st (c :: rest) =
      if st.numRead < maxRead then
        match editorStep K keys st c with
        | (some r, st1) => (some r, st1)
        | (none, st1) => editorLoop K keys maxRead st1 rest
      else editorFinish K st := by
  rw [editorLoop]

/-- The loop goes on with the next value when a pass does not leave `get_command`. -/
theorem editorLoop_step (K : Config) (keys : KeyCodes) (maxRead : Int) (st st1 : Editor)
    (c : Int) (rest : List Int) (hlt : st.numRead < maxRead)
    (hstep : editorStep K keys st c = (none, st1)) :
    editorLoop K keys maxRead st (c :: rest) = editorLoop K keys maxRead st1 rest := by
  rw [editorLoop_cons, if_pos hlt, hstep]

/-- C16, at an input where the code departs from it: in the state `ESCAPE_SEQUENCE`
(`escape_start` is 2) a carriage return, which is neither arrow code, is not ignored: it ends the
session, prints a newline and pushes the line. -/
theorem escape_sequence_cr_not_ignored :
    sampleEscState.escape_start = 2 ∧ (13 : Nat) ≠ sampleKeys.KEY_UP ∧
    (13 : Nat) ≠ sampleKeys.KEY_DOWN ∧
    (editorStep sampleConfig sampleKeys sampleEscState 13).1 = some 1 ∧
    (editorStep sampleConfig sampleKeys sampleEscState 13).2.out = sampleEscState.out ++ [10] ∧
    (editorStep sampleConfig sampleKeys sampleEscState 13).2.hist.cmdhist_entries
      = sampleEscState.hist.cmdhist_entries + 1 := by
  decide

/-- C16, amended: in the state `ESCAPE_SEQUENCE` (`escape_start` is 2), every next byte other
than the two arrow codes, the escape marker, carriage return, line feed and backspace is
ignored: the memory at `command`, `i`, `numRead`, the console output and the history are as
before, `get_command` is not left, and `escape_start` is back at 0. -/
theorem escape_sequence_other_ignored (K : Config) (keys : KeyCodes) (st : Editor) (c : Int)
    (hst : st.escape_start = 2) (h0 : 0 ≤ c)
    (hup : c ≠ (keys.KEY_UP : Int)) (hdown : c ≠ (keys.KEY_DOWN : Int))
    (hesc : c ≠ (keys.ESCAPE_CHARACTER : Int)) (hcr : c ≠ 13) (hlf : c ≠ 10) (hbs : c ≠ 8) :
    editorStep K keys st c = (none, { st with escape_start := 0 }) := by
  have h1 : ¬ c < 0 := by omega
  simp [editorStep, h1, hst, hup, hdown, hesc, hcr, hlf, hbs]

theorem escape_sequence_other_ignored_witness :
    sampleEscState.escape_start = 2 ∧ (0 : Int) ≤ 67 ∧
    (67 : Int) ≠ (sampleKeys.KEY_UP : Int) ∧ (67 : Int) ≠ (sampleKeys.KEY_DOWN : Int) ∧
    (67 : Int) ≠ (sampleKeys.ESCAPE_CHARACTER : Int) ∧
    editorStep sampleConfig sampleKeys sampleEscState 67
      = (none, { sampleEscState with escape_start := 0 }) :=
  ⟨by decide, by decide, by decide, by decide, by decide,
    escape_sequence_other_ignored sampleConfig sampleKeys sampleEscState 67
      (by decide) (by decide) (by decide) (by decide) (by decide) (by decide) (by decide)
      (by decide)⟩

/-- C17: in the state `ESCAPE_SEQUENCE` (`escape_start` is 2), for every editor and history state
in which `cmdhist_next` fails, the up-arrow code leaves the memory at `command`, `i`, `numRead`,
the console output and the history with its read cursor as they are, does not leave
`get_command`, and sets `escape_start` back to 0; the same holds for the down-arrow code when
`cmdhist_prev` fails. -/
theorem failed_recall_changes_nothing (K : Config) (keys : KeyCodes) (hk : KeysOK keys)
    (st : Editor) (hst : st.escape_start = 2) :
    ((cmdhist_next K (some none) st.hist).ret ≠ 0 →
      editorStep K keys st (keys.KEY_UP : Int) = (none, { st with escape_start := 0 })) ∧
    ((cmdhist_prev K (some none) st.hist).ret ≠ 0 →
      editorStep K keys st (keys.KEY_DOWN : Int) = (none, { st with escape_start := 0 })) := by
  obtain ⟨_, _, _, _, u1, u2, u3, u4, d1, d2, d3, d4, d5⟩ := hk
  constructor
  · intro hfail
    have hh := next_ret_ne_zero K (some none) st.hist hfail
    have h1 : ¬ ((keys.KEY_UP : Int) < 0) := by omega
    have h2 : (keys.KEY_UP : Int) ≠ (keys.ESCAPE_CHARACTER : Int) := by omega
    have h3 : (keys.KEY_UP : Int) ≠ 13 := by omega
    have h4 : (keys.KEY_UP : Int) ≠ 10 := by omega
    have h5 : (keys.KEY_UP : Int) ≠ 8 := by omega
    simp [editorStep, h1, h2, h3, h4, h5, hst, recallStep, hfail, hh]
  · intro hfail
    have hh := prev_ret_ne_zero K (some none) st.hist hfail
    have h1 : ¬ ((keys.KEY_DOWN : Int) < 0) := by omega
    have h2 : (keys.KEY_DOWN : Int) ≠ (keys.ESCAPE_CHARACTER : Int) := by omega
    have h3 : (keys.KEY_DOWN : Int) ≠ 13 := by omega
    have h4 : (keys.KEY_DOWN : Int) ≠ 10 := by omega
    have h5 : (keys.KEY_DOWN : Int) ≠ 8 := by omega
    have h6 : (keys.KEY_DOWN : Int) ≠ (keys.KEY_UP : Int) := by omega
    simp [editorStep, h1, h2, h3, h4, h5, h6, hst, recallStep, hfail, hh]

theorem failed_recall_changes_nothing_witness :
    KeysOK sampleKeys ∧
    (⟨[97, 255], 1, 1, 2, [97], sampleInit⟩ : Editor).escape_start = 2 ∧
    (cmdhist_next sampleConfig (some none) sampleInit).ret ≠ 0 ∧
    (cmdhist_prev sampleConfig (some none) sampleInit).ret ≠ 0 ∧
    editorStep sampleConfig sampleKeys ⟨[97, 255], 1, 1, 2, [97], sampleInit⟩
        (sampleKeys.KEY_UP : Int)
      = (none, ⟨[97, 255], 1, 1, 0, [97], sampleInit⟩) ∧
    editorStep sampleConfig sampleKeys ⟨[97, 255], 1, 1, 2, [97], sampleInit⟩
        (sampleKeys.KEY_DOWN : Int)
      = (none, ⟨[97, 255], 1, 1, 0, [97], sampleInit⟩) :=
  ⟨by decide, by decide, by decide, by decide,
    (failed_recall_changes_nothing sampleConfig sampleKeys (by decide)
      ⟨[97, 255], 1, 1, 2, [97], sampleInit⟩ (by decide)).1 (by decide),
    (failed_recall_changes_nothing sampleConfig sampleKeys (by decide)
      ⟨[97, 255], 1, 1, 2, [97], sampleInit⟩ (by decide)).2 (by decide)⟩

/-! ## Typing a line -/

theorem cstring_mem_ne (m : List Nat) : ∀ b ∈ cstring m, b ≠ 0 := by
  intro b hb
  have := List.mem_takeWhile_imp hb
  simpa using this

theorem cstring_idem (m : List Nat) : cstring (cstring m) = cstring m :=
  cstring_of_ne _ (cstring_mem_ne m)

theorem strncpyBytes_cstring (m : List Nat) :
    ∀ n : Nat, strncpyBytes m n = strncpyBytes (cstring m) n := by
  induction m with
  | nil => intro n; rfl
  | cons b t ih =>
    intro n
    cases n with
    | zero => simp [strncpyBytes]
    | succ n =>
      by_cases hb : b = 0
      · subst hb
        simp [cstring_cons_zero, strncpyBytes]
      · rw [cstring_cons_ne hb]
        simp [strncpyBytes, hb, ih n]

/-- `cmdhist_push` depends on the memory it is handed only through the string found there. -/
theorem push_cstring (K : Config) (m : List Nat) (s : History) :
    cmdhist_push K (some m) s = cmdhist_push K (some (cstring m)) s := by
  have h1 : _strlen (cstring m) = _strlen m := by
    rw [strlen_eq_length_cstring, strlen_eq_length_cstring, cstring_idem]
  have h2 : ∀ dest, _strncpy dest (cstring m) K.MAX_COMMANDLINE_LENGTH
      = _strncpy dest m K.MAX_COMMANDLINE_LENGTH := by
    intro dest
    simp only [_strncpy, ← strncpyBytes_cstring]
  simp only [cmdhist_push, h1, h2]

theorem byteOf_nat (b : Nat) (hb : b < 256) : byteOf (b : Int) = b := by
  unfold byteOf
  omega

theorem step_ordinary (K : Config) (keys : KeyCodes) (st : Editor) (b : Nat)
    (hb : Ordinary keys b) (hesc : st.escape_start = 0) :
    editorStep K keys st (b : Int) =
      (none, { st with escape_start := 0, command := st.command.set st.i b, i := st.i + 1,
                       numRead := st.numRead + 1, out := st.out ++ [b] }) := by
  obtain ⟨h256, h0, he, h13, h10, h8⟩ := hb
  have h1 : ¬ ((b : Int) < 0) := by omega
  have h2 : (b : Int) ≠ (keys.ESCAPE_CHARACTER : Int) := by omega
  have h3 : (b : Int) ≠ 13 := by omega
  have h4 : (b : Int) ≠ 10 := by omega
  have h5 : (b : Int) ≠ 8 := by omega
  simp [editorStep, h1, h2, h3, h4, h5, hesc, byteOf_nat b h256]

theorem step_backspace (K : Config) (keys : KeyCodes) (st : Editor)
    (hk : keys.ESCAPE_CHARACTER ≠ 8) (hesc : st.escape_start = 0) :
    editorStep K keys st 8 =
      if st.i > 0 then
        (none, { st with escape_start := 0, i := st.i - 1, numRead := st.numRead - 1,
                         out := st.out ++ [8, 32, 8] })
      else (none, { st with escape_start := 0 }) := by
  have h2 : (8 : Int) ≠ (keys.ESCAPE_CHARACTER : Int) := by omega
  simp [editorStep, h2, hesc]

theorem step_enter (K : Config) (keys : KeyCodes) (st : Editor) (term : Nat)
    (hterm : term = 13 ∨ term = 10)
    (hk : keys.ESCAPE_CHARACTER ≠ 13 ∧ keys.ESCAPE_CHARACTER ≠ 10)
    (hesc : st.escape_start ≠ 1) :
    editorStep K keys st (term : Int) =
      (some st.numRead,
        { command := st.command.set st.i 0, i := st.i + 1, numRead := st.numRead,
          escape_start := 0, out := st.out ++ [10],
          hist := (cmdhist_push K (some (st.command.set st.i 0)) st.hist).2 }) := by
  have h1 : ¬ ((term : Int) < 0) := by omega
  have h2 : (term : Int) ≠ (keys.ESCAPE_CHARACTER : Int) := by omega
  have h3 : (term : Int) = 13 ∨ (term : Int) = 10 := by omega
  simp [editorStep, h1, h2, h3, hesc]

theorem editFrom_cons (acc : List Nat) (b : Nat) (bs : List Nat) :
    editFrom acc (b :: bs) = editFrom (if b = 8 then acc.dropLast else acc ++ [b]) bs := rfl

theorem editFrom_nil (acc : List Nat) : editFrom acc [] = acc := rfl

theorem editFrom_ne_zero (bs : List Nat) :
    ∀ acc : List Nat, (∀ x ∈ acc, x ≠ 0) → (∀ b ∈ bs, b ≠ 0) →
      ∀ x ∈ editFrom acc bs, x ≠ 0 := by
  induction bs with
  | nil => intro acc h _; exact h
  | cons b bs ih =>
    intro acc hacc hbs
    rw [editFrom_cons]
    apply ih
    · split_ifs
      · intro x hx; exact hacc x (List.mem_of_mem_dropLast hx)
      · intro x hx
        rcases List.mem_append.mp hx with h | h
        · exact hacc x h
        · rw [List.mem_singleton.mp h]; exact hbs b (by simp)
    · intro x hx; exact hbs x (by simp [hx])

theorem set_at_length (acc : List Nat) (t : Nat) (tl : List Nat) (v : Nat) :
    (acc ++ t :: tl).set acc.length v = acc ++ v :: tl := by
  induction acc with
  | nil => simp
  | cons a acc ih => simp [ih]

/-- The loop of `get_command` on typed bytes and backspaces followed by carriage return or line
feed, entered with the line `acc` in the buffer: while the edited length stays below `maxRead`
and `maxRead` is below the size of the memory, it returns the length of the edited line, leaves
the edited line and a NUL in the buffer, and has handed that buffer to `cmdhist_push`. -/
theorem editorLoop_typed (K : Config) (keys : KeyCodes)
    (hk : keys.ESCAPE_CHARACTER ≠ 8 ∧ keys.ESCAPE_CHARACTER ≠ 13 ∧ keys.ESCAPE_CHARACTER ≠ 10)
    (maxRead : Int) (term : Nat) (hterm : term = 13 ∨ term = 10) (bs : List Nat) :
    ∀ (acc tl out : List Nat) (h : History),
      (∀ b ∈ bs, b = 8 ∨ Ordinary keys b) →
      (∀ j, j ≤ bs.length → ((editFrom acc (bs.take j)).length : Int) < maxRead) →
      maxRead < ((acc.length + tl.length : Nat) : Int) →
      ∃ tl1 out1,
        editorLoop K keys maxRead ⟨acc ++ tl, acc.length, (acc.length : Int), 0, out, h⟩
            (bs.map (fun (b : Nat) => (b : Int)) ++ [(term : Int)])
          = (some ((editFrom acc bs).length : Int),
              ⟨editFrom acc bs ++ 0 :: tl1, (editFrom acc bs).length + 1,
                ((editFrom acc bs).length : Int), 0, out1,
                (cmdhist_push K (some (editFrom acc bs ++ 0 :: tl1)) h).2⟩) := by
  induction bs with
  | nil =>
    intro acc tl out h _ hrun hcap
    have hlt : ((acc.length : Nat) : Int) < maxRead := by
      have := hrun 0 (by simp)
      simpa [editFrom_nil] using this
    obtain ⟨t, tl1, rfl⟩ : ∃ t tl1, tl = t :: tl1 := by
      cases tl with
      | nil => simp at hcap; omega
      | cons t tl1 => exact ⟨t, tl1, rfl⟩
    refine ⟨tl1, out ++ [10], ?_⟩
    simp only [List.map_nil, List.nil_append, editFrom_nil]
    rw [editorLoop_cons, if_pos hlt, step_enter K keys _ term hterm ⟨hk.2.1, hk.2.2⟩ (by simp)]
    simp only [set_at_length]
  | cons b bs ih =>
    intro acc tl out h hbytes hrun hcap
    have hlt : ((acc.length : Nat) : Int) < maxRead := by
      have := hrun 0 (by simp)
      simpa [editFrom_nil] using this
    have hbs : ∀ x ∈ bs, x = 8 ∨ Ordinary keys x := fun x hx => hbytes x (by simp [hx])
    have hrun2 : ∀ j, j ≤ bs.length →
        ((editFrom (if b = 8 then acc.dropLast else acc ++ [b]) (bs.take j)).length : Int)
          < maxRead := by
      intro j hj
      have := hrun (j + 1) (by simpa using hj)
      simpa [editFrom_cons] using this
    rw [List.map_cons, List.cons_append, editFrom_cons]
    rcases hbytes b (by simp) with h8 | hord
    · -- a backspace
      subst h8
      simp only [if_true] at hrun2 ⊢
      by_cases hpos : acc.length > 0
      · have hne : acc ≠ [] := fun h0 => by rw [h0] at hpos; simp at hpos
        have hstep := step_backspace K keys ⟨acc ++ tl, acc.length, (acc.length : Int), 0, out, h⟩
          hk.1 rfl
        simp only [if_pos hpos] at hstep
        have hstate : ({ (⟨acc ++ tl, acc.length, (acc.length : Int), 0, out, h⟩ : Editor) with
            escape_start := 0, i := acc.length - 1, numRead := (acc.length : Int) - 1,
            out := out ++ [8, 32, 8] } : Editor)
            = ⟨acc.dropLast ++ (acc.getLast hne :: tl), acc.dropLast.length,
                (acc.dropLast.length : Int), 0, out ++ [8, 32, 8], h⟩ := by
          have e1 : acc.dropLast ++ (acc.getLast hne :: tl) = acc ++ tl := by
            have e0 : acc.dropLast ++ (acc.getLast hne :: tl)
                = (acc.dropLast ++ [acc.getLast hne]) ++ tl := by simp
            rw [e0, List.dropLast_append_getLast hne]
          have e2 : acc.dropLast.length = acc.length - 1 := List.length_dropLast acc
          have e3 : ((acc.dropLast.length : Nat) : Int) = (acc.length : Int) - 1 := by
            rw [e2]; omega
          rw [e1, e2]
          simp only [Editor.mk.injEq, true_and, and_true]
          omega
        have hstep2 : editorStep K keys ⟨acc ++ tl, acc.length, (acc.length : Int), 0, out, h⟩
            ((8 : Nat) : Int) = (none, ⟨acc.dropLast ++ (acc.getLast hne :: tl),
              acc.dropLast.length, (acc.dropLast.length : Int), 0, out ++ [8, 32, 8], h⟩) := by
          rw [← hstate]; exact hstep
        rw [editorLoop_step K keys maxRead _ _ _ _ hlt hstep2]
        apply ih _ _ _ _ hbs hrun2
        have e2 : acc.dropLast.length = acc.length - 1 := List.length_dropLast acc
        simp only [List.length_cons, e2]
        have : acc.length - 1 + (tl.length + 1) = acc.length + tl.length := by omega
        rw [this]; exact hcap
      · have h0 : acc = [] := List.length_eq_zero.mp (by omega)
        subst h0
        have hstep := step_backspace K keys ⟨[] ++ tl, 0, ((0 : Nat) : Int), 0, out, h⟩
          hk.1 rfl
        simp only [gt_iff_lt, lt_self_iff_false, if_false] at hstep
        have hstep2 : editorStep K keys
            ⟨[] ++ tl, ([] : List Nat).length, (([] : List Nat).length : Int), 0, out, h⟩
            ((8 : Nat) : Int)
            = (none, ⟨[] ++ tl, ([] : List Nat).length, (([] : List Nat).length : Int), 0,
                out, h⟩) := hstep
        rw [editorLoop_step K keys maxRead _ _ _ _ hlt hstep2]
        exact ih [] tl out h hbs hrun2 hcap
    · -- an ordinary byte
      have hb8 : b ≠ 8 := hord.2.2.2.2.2
      simp only [hb8, if_false] at hrun2 ⊢
      obtain ⟨t, tl1, rfl⟩ : ∃ t tl1, tl = t :: tl1 := by
        cases tl with
        | nil => simp at hcap; omega
        | cons t tl1 => exact ⟨t, tl1, rfl⟩
      have hstep := step_ordinary K keys
        ⟨acc ++ t :: tl1, acc.length, (acc.length : Int), 0, out, h⟩ b hord rfl
      have hstep2 : editorStep K keys
          ⟨acc ++ t :: tl1, acc.length, (acc.length : Int), 0, out, h⟩ (b : Int)
          = (none, ⟨(acc ++ [b]) ++ tl1, (acc ++ [b]).length, ((acc ++ [b]).length : Int), 0,
              out ++ [b], h⟩) := by
        rw [hstep]
        simp only [set_at_length, Prod.mk.injEq, true_and, Editor.mk.injEq, and_true]
        refine ⟨by simp, by simp, ?_⟩
        simp
      rw [editorLoop_step K keys maxRead _ _ _ _ hlt hstep2]
      apply ih _ _ _ _ hbs hrun2
      simp only [List.length_append, List.length_singleton, List.length_cons] at hcap ⊢
      omega

/-- A session of `get_command` in which a line is typed, edited with backspaces and ended with
carriage return or line feed. -/
theorem typed_session (K : Config) (keys : KeyCodes)
    (hk : keys.ESCAPE_CHARACTER ≠ 8 ∧ keys.ESCAPE_CHARACTER ≠ 13 ∧ keys.ESCAPE_CHARACTER ≠ 10)
    (command : List Nat) (len : Int) (bs : List Nat) (term : Nat) (hist : History)
    (hterm : term = 13 ∨ term = 10) (hbytes : ∀ b ∈ bs, b = 8 ∨ Ordinary keys b)
    (hrun : ∀ j, j ≤ bs.length → ((editLine (bs.take j)).length : Int) < len - 1)
    (hcap : len ≤ (command.length : Int)) :
    ∃ st, get_command K keys command len
        (bs.map (fun (b : Nat) => (b : Int)) ++ [(term : Int)]) hist
        = (some ((editLine bs).length : Int), st) ∧
      st.command.take (editLine bs).length = editLine bs ∧
      st.command.getD (editLine bs).length 1 = 0 ∧
      st.hist = (cmdhist_push K (some (editLine bs)) (cmdhist_reset hist).2).2 := by
  obtain ⟨tl1, out1, hrun2⟩ := editorLoop_typed K keys hk (len - 1) term hterm bs [] command []
    (cmdhist_reset hist).2 hbytes hrun (by simp; omega)
  have hnul : ∀ x ∈ editLine bs, x ≠ 0 := by
    apply editFrom_ne_zero bs [] (by simp)
    intro b hb
    rcases hbytes b hb with h | h
    · omega
    · exact h.2.1
  refine ⟨_, hrun2, ?_, ?_, ?_⟩
  · show (editFrom [] bs ++ 0 :: tl1).take (editLine bs).length = editLine bs
    simp [editLine]
  · show (editFrom [] bs ++ 0 :: tl1).getD (editLine bs).length 1 = 0
    simp only [editLine]
    rw [List.getD_eq_getElem _ _ (by simp), List.getElem_append_right (by simp)]
    simp
  · show (cmdhist_push K (some (editFrom [] bs ++ 0 :: tl1)) (cmdhist_reset hist).2).2 = _
    have hc : cstring (editFrom [] bs ++ 0 :: tl1) = editLine bs :=
      cstring_append_nul _ _ hnul
    rw [push_cstring, hc]

/-- C12: for every capacity `len` and every input made of ordinary bytes and backspaces whose
running edited length stays below `len - 1`, followed by a carriage return or a line feed:
`get_command` returns the length `n` of the edited line, leaves the edited line in
`command[0..n)` and NUL in `command[n]`, and the history afterwards is the history after
`cmdhist_reset` followed by `cmdhist_push` of the edited line. -/
theorem get_command_edited_line (K : Config) (keys : KeyCodes)
    (hk : keys.ESCAPE_CHARACTER ≠ 8 ∧ keys.ESCAPE_CHARACTER ≠ 13 ∧ keys.ESCAPE_CHARACTER ≠ 10)
    (command : List Nat) (len : Int) (bs : List Nat) (term : Nat) (hist : History)
    (hterm : term = 13 ∨ term = 10) (hbytes : ∀ b ∈ bs, b = 8 ∨ Ordinary keys b)
    (hrun : ∀ j, j ≤ bs.length → ((editLine (bs.take j)).length : Int) < len - 1)
    (hcap : len ≤ (command.length : Int)) :
    ∃ st, get_command K keys command len
        (bs.map (fun (b : Nat) => (b : Int)) ++ [(term : Int)]) hist
        = (some ((editLine bs).length : Int), st) ∧
      st.command.take (editLine bs).length = editLine bs ∧
      st.command.getD (editLine bs).length 1 = 0 ∧
      st.hist = (cmdhist_push K (some (editLine bs)) (cmdhist_reset hist).2).2 :=
  typed_session K keys hk command len bs term hist hterm hbytes hrun hcap

theorem get_command_edited_line_witness :
    (sampleKeys.ESCAPE_CHARACTER ≠ 8 ∧ sampleKeys.ESCAPE_CHARACTER ≠ 13 ∧
      sampleKeys.ESCAPE_CHARACTER ≠ 10) ∧
    (∀ b ∈ [97, 98, 8, 8, 8, 99, 100], b = 8 ∨ Ordinary sampleKeys b) ∧
    (∀ j, j ≤ [97, 98, 8, 8, 8, 99, 100].length →
      ((editLine ([97, 98, 8, 8, 8, 99, 100].take j)).length : Int) < 8 - 1) ∧
    editLine [97, 98, 8, 8, 8, 99, 100] = [99, 100] ∧
    ∃ st, get_command sampleConfig sampleKeys (List.replicate 8 255) 8
        ([97, 98, 8, 8, 8, 99, 100].map (fun (b : Nat) => (b : Int)) ++ [((13 : Nat) : Int)])
        helloRing
        = (some ((editLine [97, 98, 8, 8, 8, 99, 100]).length : Int), st) ∧
      st.command.take (editLine [97, 98, 8, 8, 8, 99, 100]).length
        = editLine [97, 98, 8, 8, 8, 99, 100] ∧
      st.command.getD (editLine [97, 98, 8, 8, 8, 99, 100]).length 1 = 0 ∧
      st.hist = (cmdhist_push sampleConfig (some (editLine [97, 98, 8, 8, 8, 99, 100]))
        (cmdhist_reset helloRing).2).2 :=
  ⟨by decide, by decide, by decide, by decide,
    get_command_edited_line sampleConfig sampleKeys (by decide) (List.replicate 8 255) 8
      [97, 98, 8, 8, 8, 99, 100] 13 helloRing (by decide) (by decide) (by decide) (by decide)⟩

/-! ## Recall across sessions -/

theorem shape_init (K : Config) (s0 : History) (h : Shape K s0) : Shape K (init_commands s0) := by
  unfold Shape
  simp only [init_commands, clearLoop_length]
  exact ⟨h.1, clearLoop_rowsOK K _ s0.cmdhistory h.2⟩

theorem push_rows (K : Config) (c : List Nat) (s : History) :
    (cmdhist_push K (some c) s).2.cmdhistory = s.cmdhistory ∨
    (cmdhist_push K (some c) s).2.cmdhistory =
      s.cmdhistory.set s.cmdhist_write
        (_strncpy (s.cmdhistory.getD s.cmdhist_write []) c K.MAX_COMMANDLINE_LENGTH) := by
  unfold cmdhist_push
  by_cases h1 : _strlen c > K.MAX_COMMANDLINE_LENGTH
  · left; simp [h1]
  · by_cases h2 : _strlen c = 0
    · left; simp [h2]
    · right; simp [h1, h2]

theorem shape_push (K : Config) (cmd : Option (List Nat)) (s : History) (h : Shape K s) :
    Shape K (cmdhist_push K cmd s).2 := by
  cases cmd with
  | none => simpa [cmdhist_push] using h
  | some c =>
    rcases push_rows K c s with h1 | h1
    · exact ⟨by rw [h1]; exact h.1, by rw [h1]; exact h.2⟩
    · refine ⟨by rw [h1]; simp [h.1], ?_⟩
      rw [h1]
      by_cases hw : s.cmdhist_write < s.cmdhistory.length
      · apply rowsOK_set K _ h.2
        have hrow : (s.cmdhistory.getD s.cmdhist_write []).length = K.MAX_COMMANDLINE_LENGTH := by
          rw [List.getD_eq_getElem _ _ hw]
          exact h.2 _ (List.getElem_mem hw)
        simp only [_strncpy, List.length_append, strncpyBytes_length, List.length_drop, hrow]
        omega
      · rw [List.set_eq_of_length_le (by omega)]
        exact h.2

theorem shape_applyOp (K : Config) (op : HistOp) (s : History) (h : Shape K s) :
    Shape K (applyOp K s op) := by
  cases op with
  | push cmd => exact shape_push K cmd s h
  | reset => exact h
  | next cmd =>
    obtain ⟨_, _, h3, _⟩ := next_counters K cmd s
    exact ⟨by simp only [applyOp, h3]; exact h.1, by simp only [applyOp, h3]; exact h.2⟩
  | prev cmd =>
    obtain ⟨_, _, h3, _⟩ := prev_counters K cmd s
    exact ⟨by simp only [applyOp, h3]; exact h.1, by simp only [applyOp, h3]; exact h.2⟩

theorem shape_runOps (K : Config) (ops : List HistOp) :
    ∀ s : History, Shape K s → Shape K (runOps K ops s) := by
  induction ops with
  | nil => intro s h; exact h
  | cons op ops ih =>
    intro s h
    exact ih (applyOp K s op) (shape_applyOp K op s h)

theorem editFrom_ordinary (L : List Nat) (h8 : ∀ b ∈ L, b ≠ 8) :
    ∀ acc : List Nat, editFrom acc L = acc ++ L := by
  induction L with
  | nil => intro acc; simp [editFrom_nil]
  | cons b L ih =>
    intro acc
    have hb : b ≠ 8 := h8 b (by simp)
    rw [editFrom_cons, if_neg hb, ih (fun x hx => h8 x (by simp [hx]))]
    simp

/-- After a line that fits a row has been pushed into a ring that satisfies the invariant, and
the read cursor has been reset, `cmdhist_next` succeeds and hands back the row just written,
which holds the line and its terminator. -/
theorem next_after_push (K : Config) (h : History) (L : List Nat) (hinv : RingInv h)
    (hshape : Shape K h) (hfit : FitsSlot K L) :
    ∃ hN rest,
      cmdhist_next K (some none)
          (cmdhist_reset (cmdhist_push K (some L) (cmdhist_reset h).2).2).2
        = ⟨0, some (some h.cmdhist_write), hN⟩ ∧
      slotMem hN.cmdhistory h.cmdhist_write = L ++ 0 :: rest := by
  obtain ⟨he, hw, hr, hwe⟩ := hinv
  obtain ⟨hlen, hrows⟩ := hshape
  have hpush := push_accepted K L (cmdhist_reset h).2 hfit.1 hfit.2.1 (le_of_lt hfit.2.2)
    (rowsOK_getD K _ hrows _)
  simp only [cmdhist_reset] at hpush ⊢
  rw [hpush]
  have hwlt : h.cmdhist_write < h.cmdhistory.length := by rw [hlen]; exact hw
  have hrow : (h.cmdhistory.set h.cmdhist_write (storedRow K L)).getD h.cmdhist_write []
      = storedRow K L := by
    rw [List.getD_eq_getElem _ _ (by simpa using hwlt)]
    simp
  have hmem : slotMem (h.cmdhistory.set h.cmdhist_write (storedRow K L)) h.cmdhist_write
      = L ++ 0 :: (List.replicate (K.MAX_COMMANDLINE_LENGTH - L.length - 1) 0
          ++ slotMem (h.cmdhistory.set h.cmdhist_write (storedRow K L))
              (h.cmdhist_write + 1)) := by
    rw [slotMem_eq, hrow, storedRow_eq_cons K L hfit.2.2]
    simp
  refine ⟨{ cmdhistory := h.cmdhistory.set h.cmdhist_write (storedRow K L),
            cmdhist_write := (h.cmdhist_write + 1) % MAX_HIST,
            cmdhist_entries := if h.cmdhist_entries < MAX_HIST then h.cmdhist_entries + 1
              else h.cmdhist_entries,
            cmdhist_read := h.cmdhist_write }, _, ?_, hmem⟩
  by_cases h31 : h.cmdhist_write + 1 < MAX_HIST
  · have hmod : (h.cmdhist_write + 1) % MAX_HIST = h.cmdhist_write + 1 := Nat.mod_eq_of_lt h31
    rw [hmod]
    apply next_step K _ h.cmdhist_write L _ rfl hrow hfit
    simp only
    split_ifs <;> omega
  · have hw31 : h.cmdhist_write = 31 := by simp only [MAX_HIST] at h31 hw ⊢; omega
    have hmod : (h.cmdhist_write + 1) % MAX_HIST = 0 := by rw [hw31]; rfl
    have hent : (if h.cmdhist_entries < MAX_HIST then h.cmdhist_entries + 1
        else h.cmdhist_entries) = MAX_HIST := by
      split_ifs with hlt
      · have := hwe hlt
        simp only [MAX_HIST] at hw31 this ⊢
        omega
      · simp only [MAX_HIST] at he hlt ⊢
        omega
    rw [hmod]
    have hrow2 : (h.cmdhistory.set h.cmdhist_write (storedRow K L)).getD (MAX_HIST - 1) []
        = storedRow K L := by
      have e31 : MAX_HIST - 1 = h.cmdhist_write := by rw [hw31]; rfl
      rw [e31]; exact hrow
    have := next_wrap K
      { cmdhistory := h.cmdhistory.set h.cmdhist_write (storedRow K L),
        cmdhist_write := 0,
        cmdhist_entries := if h.cmdhist_entries < MAX_HIST then h.cmdhist_entries + 1
          else h.cmdhist_entries,
        cmdhist_read := 0 } L hent rfl hrow2 hfit
    rw [this]
    have e31 : MAX_HIST - 1 = h.cmdhist_write := by rw [hw31]; rfl
    simp only [e31]

theorem eraseLine_zero : eraseLine 0 = [] := by
  simp [eraseLine]

/-- What the up-arrow case leaves when `cmdhist_next` hands back a row that holds the line `L`
and its terminator: the line is printed after as many erase sequences as `numRead` counts, `i`
and `numRead` are its length, and the memory at `command` starts with the line and NULs up to
`MAX_COMMANDLINE_LENGTH` bytes. -/
theorem recallStep_line (K : Config) (st : Editor) (p : Nat) (hN : History)
    (L rest : List Nat) (hmem : slotMem hN.cmdhistory p = L ++ 0 :: rest)
    (hnul : ∀ b ∈ L, b ≠ 0) (hfit : L.length < K.MAX_COMMANDLINE_LENGTH) :
    recallStep K st ⟨0, some (some p), hN⟩ =
      ⟨L ++ 0 :: (List.replicate (K.MAX_COMMANDLINE_LENGTH - L.length - 1) 0
          ++ st.command.drop K.MAX_COMMANDLINE_LENGTH),
        L.length, (L.length : Int), 0, st.out ++ eraseLine st.numRead ++ L, hN⟩ := by
  have hc : cstring (L ++ 0 :: rest) = L := cstring_append_nul L rest hnul
  have hlen : _strlen (L ++ 0 :: rest) = L.length := by
    rw [strlen_eq_length_cstring, hc]
  have hcopy : _strncpy st.command (L ++ 0 :: rest) K.MAX_COMMANDLINE_LENGTH
      = L ++ 0 :: (List.replicate (K.MAX_COMMANDLINE_LENGTH - L.length - 1) 0
          ++ st.command.drop K.MAX_COMMANDLINE_LENGTH) := by
    unfold _strncpy
    rw [strncpyBytes_cstring, hc, strncpyBytes_of_le L _ hnul (le_of_lt hfit)]
    have e : K.MAX_COMMANDLINE_LENGTH - L.length
        = (K.MAX_COMMANDLINE_LENGTH - L.length - 1) + 1 := by omega
    rw [e, List.replicate_succ]
    simp
  simp only [recallStep, ne_eq, not_true_eq_false, if_false, hmem, hlen, hc, hcopy]

/-- A session of `get_command` in which the escape marker, the sequence marker, the up-arrow code
and a carriage return arrive, on a history whose `cmdhist_next` after the reset hands back a row
that holds the line `L` and its terminator. -/
theorem recall_session (K : Config) (keys : KeyCodes) (hk : KeysOK keys) (command : List Nat)
    (len : Int) (h1 hN : History) (p : Nat) (L rest : List Nat)
    (hnext : cmdhist_next K (some none) (cmdhist_reset h1).2 = ⟨0, some (some p), hN⟩)
    (hmem : slotMem hN.cmdhistory p = L ++ 0 :: rest)
    (hnul : ∀ b ∈ L, b ≠ 0) (hfit : L.length < K.MAX_COMMANDLINE_LENGTH)
    (hLlen : (L.length : Int) < len - 1) :
    ∃ st2, get_command K keys command len
        [(keys.ESCAPE_CHARACTER : Int), (keys.ESCAPE_SEQUENCE : Int), (keys.KEY_UP : Int), 13] h1
        = (some (L.length : Int), st2) ∧
      st2.command.take L.length = L ∧ st2.command.getD L.length 1 = 0 ∧
      st2.out = L ++ [10] := by
  obtain ⟨e8, e13, e10, sq, u1, u2, u3, u4, _⟩ := hk
  have h0 : (0 : Int) < len - 1 := by
    have : (0 : Int) ≤ (L.length : Int) := Int.natCast_nonneg _
    omega
  have hs1 : editorStep K keys ⟨command, 0, 0, 0, [], (cmdhist_reset h1).2⟩
      (keys.ESCAPE_CHARACTER : Int)
      = (none, ⟨command, 0, 0, 1, [], (cmdhist_reset h1).2⟩) := by
    have c1 : ¬ ((keys.ESCAPE_CHARACTER : Int) < 0) := by omega
    simp [editorStep, c1]
  have hs2 : editorStep K keys ⟨command, 0, 0, 1, [], (cmdhist_reset h1).2⟩
      (keys.ESCAPE_SEQUENCE : Int)
      = (none, ⟨command, 0, 0, 2, [], (cmdhist_reset h1).2⟩) := by
    have c1 : ¬ ((keys.ESCAPE_SEQUENCE : Int) < 0) := by omega
    have c2 : (keys.ESCAPE_SEQUENCE : Int) ≠ (keys.ESCAPE_CHARACTER : Int) := by omega
    simp [editorStep, c1, c2]
  have hs3 : editorStep K keys ⟨command, 0, 0, 2, [], (cmdhist_reset h1).2⟩
      (keys.KEY_UP : Int)
      = (none, ⟨L ++ 0 :: (List.replicate (K.MAX_COMMANDLINE_LENGTH - L.length - 1) 0
          ++ command.drop K.MAX_COMMANDLINE_LENGTH),
          L.length, (L.length : Int), 0, L, hN⟩) := by
    have c1 : ¬ ((keys.KEY_UP : Int) < 0) := by omega
    have c2 : (keys.KEY_UP : Int) ≠ (keys.ESCAPE_CHARACTER : Int) := by omega
    have c3 : (keys.KEY_UP : Int) ≠ 13 := by omega
    have c4 : (keys.KEY_UP : Int) ≠ 10 := by omega
    have c5 : (keys.KEY_UP : Int) ≠ 8 := by omega
    have hrec := recallStep_line K ⟨command, 0, 0, 2, [], (cmdhist_reset h1).2⟩ p hN L rest
      hmem hnul hfit
    simp only [editorStep, c1, c2, c3, c4, c5, if_false, false_or, false_and, if_true,
      hnext, hrec]
    simp [eraseLine_zero]
  have hs4 := step_enter K keys
    ⟨L ++ 0 :: (List.replicate (K.MAX_COMMANDLINE_LENGTH - L.length - 1) 0
          ++ command.drop K.MAX_COMMANDLINE_LENGTH),
      L.length, (L.length : Int), 0, L, hN⟩ 13 (Or.inl rfl) ⟨e13, e10⟩ (by simp)
  simp only [set_at_length] at hs4
  have hcast : ((13 : Nat) : Int) = 13 := rfl
  rw [hcast] at hs4
  have hstart : editorStart command h1 = ⟨command, 0, 0, 0, [], (cmdhist_reset h1).2⟩ := rfl
  have hrun : get_command K keys command len
      [(keys.ESCAPE_CHARACTER : Int), (keys.ESCAPE_SEQUENCE : Int), (keys.KEY_UP : Int), 13] h1
      = (some (L.length : Int),
          ⟨L ++ 0 :: (List.replicate (K.MAX_COMMANDLINE_LENGTH - L.length - 1) 0
              ++ command.drop K.MAX_COMMANDLINE_LENGTH),
            L.length + 1, (L.length : Int), 0, L ++ [10],
            (cmdhist_push K (some (L ++ 0 :: (List.replicate
              (K.MAX_COMMANDLINE_LENGTH - L.length - 1) 0
              ++ command.drop K.MAX_COMMANDLINE_LENGTH))) hN).2⟩) := by
    unfold get_command
    rw [hstart, editorLoop_step K keys _ _ _ _ _ h0 hs1,
      editorLoop_step K keys _ _ _ _ _ h0 hs2,
      editorLoop_step K keys _ _ _ _ _ h0 hs3,
      editorLoop_cons, if_pos hLlen, hs4]
  refine ⟨_, hrun, ?_, ?_, rfl⟩
  · simp
  · simp only
    rw [List.getD_eq_getElem _ _ (by simp), List.getElem_append_right (by simp)]
    simp

/-- C18: for every history reached from `init_commands` by calls of `cmdhist_push`,
`cmdhist_reset`, `cmdhist_next` and `cmdhist_prev`, every capacity `len` of at least
`MAX_COMMANDLINE_LENGTH`, and every non-empty line `L` of ordinary bytes shorter than `len - 1`
that fits a history row with its terminator: a call of `get_command` fed `L` and a carriage
return returns the length of `L` with `L` in the buffer, and a second call, fed the escape
marker, the sequence marker, the up-arrow code and a carriage return, returns the length of `L`
with `L` followed by NUL in its buffer, and has printed `L` and the newline only, with no erase
sequence before `L`. -/
theorem recall_round_trip (K : Config) (keys : KeyCodes) (hk : KeysOK keys) (s0 : History)
    (hs0 : Shape K s0) (ops : List HistOp) (len : Int) (command1 command2 L : List Nat)
    (_hlen : (K.MAX_COMMANDLINE_LENGTH : Int) ≤ len)
    (hcap1 : len ≤ (command1.length : Int)) (_hcap2 : len ≤ (command2.length : Int))
    (hL : ∀ b ∈ L, Ordinary keys b) (hfit : FitsSlot K L)
    (hLlen : (L.length : Int) < len - 1) :
    ∃ st1 st2,
      get_command K keys command1 len (L.map (fun (b : Nat) => (b : Int)) ++ [13])
          (runOps K ops (init_commands s0))
        = (some (L.length : Int), st1) ∧
      st1.command.take L.length = L ∧
      get_command K keys command2 len
          [(keys.ESCAPE_CHARACTER : Int), (keys.ESCAPE_SEQUENCE : Int), (keys.KEY_UP : Int), 13]
          st1.hist
        = (some (L.length : Int), st2) ∧
      st2.command.take L.length = L ∧ st2.command.getD L.length 1 = 0 ∧
      st2.out = L ++ [10] := by
  have hinv := ringInv_runOps K ops _ (ringInv_init s0)
  have hshape := shape_runOps K ops _ (shape_init K s0 hs0)
  have h8 : ∀ b ∈ L, b ≠ 8 := fun b hb => (hL b hb).2.2.2.2.2
  have hedit : ∀ M : List Nat, (∀ b ∈ M, b ≠ 8) → editLine M = M := by
    intro M hM
    have := editFrom_ordinary M hM []
    simpa [editLine] using this
  have heL : editLine L = L := hedit L h8
  have hrun : ∀ j, j ≤ L.length → ((editLine (L.take j)).length : Int) < len - 1 := by
    intro j hj
    rw [hedit (L.take j) (fun b hb => h8 b (List.mem_of_mem_take hb))]
    have : (L.take j).length ≤ L.length := by simp
    omega
  obtain ⟨st1, hrun1, htake1, _, hhist1⟩ := typed_session K keys ⟨hk.1, hk.2.1, hk.2.2.1⟩
    command1 len L 13 (runOps K ops (init_commands s0)) (Or.inl rfl)
    (fun b hb => Or.inr (hL b hb)) hrun hcap1
  rw [heL] at hrun1 htake1 hhist1
  obtain ⟨hN, rest, hnext, hmem⟩ := next_after_push K _ L hinv hshape hfit
  rw [← hhist1] at hnext
  obtain ⟨st2, hrun2, htake2, hnul2, hout2⟩ := recall_session K keys hk command2 len st1.hist hN
    _ L rest hnext hmem hfit.2.1 hfit.2.2 hLlen
  exact ⟨st1, st2, hrun1, htake1, hrun2, htake2, hnul2, hout2⟩

theorem recall_round_trip_witness :
    KeysOK sampleKeys ∧ Shape sampleConfig fullRing ∧
    (sampleConfig.MAX_COMMANDLINE_LENGTH : Int) ≤ 8 ∧
    (∀ b ∈ [108, 115], Ordinary sampleKeys b) ∧ FitsSlot sampleConfig [108, 115] ∧
    ∃ st1 st2,
      get_command sampleConfig sampleKeys (List.replicate 8 255) 8
          ([108, 115].map (fun (b : Nat) => (b : Int)) ++ [13])
          (runOps sampleConfig [.push (some [97]), .reset, .next (some none)]
            (init_commands fullRing))
        = (some (([108, 115] : List Nat).length : Int), st1) ∧
      st1.command.take ([108, 115] : List Nat).length = [108, 115] ∧
      get_command sampleConfig sampleKeys (List.replicate 8 0) 8
          [(sampleKeys.ESCAPE_CHARACTER : Int), (sampleKeys.ESCAPE_SEQUENCE : Int),
            (sampleKeys.KEY_UP : Int), 13]
          st1.hist
        = (some (([108, 115] : List Nat).length : Int), st2) ∧
      st2.command.take ([108, 115] : List Nat).length = [108, 115] ∧
      st2.command.getD ([108, 115] : List Nat).length 1 = 0 ∧
      st2.out = [108, 115] ++ [10] :=
  ⟨by decide, by decide, by decide, by decide, by decide,
    recall_round_trip sampleConfig sampleKeys (by decide) fullRing (by decide)
      [.push (some [97]), .reset, .next (some none)] 8 (List.replicate 8 255)
      (List.replicate 8 0) [108, 115] (by decide) (by decide) (by decide) (by decide)
      (by decide) (by decide)⟩

/-- C19, at an input where the code departs from it: with capacity `len = 4` and the line `hello`
in the history, the up-arrow sequence makes `get_command` copy `MAX_COMMANDLINE_LENGTH` bytes to
`command`, so that the byte at index 4, beyond the capacity, is overwritten, and sets `numRead`
to 5, above `len - 1`; that value is returned. -/
theorem get_command_recall_overruns :
    helloRing = runOps sampleConfig [.push (some [104, 101, 108, 108, 111])]
      (init_commands (zeroHistory sampleConfig)) ∧
    (get_command sampleConfig sampleKeys (List.replicate 8 255) 4 [27, 91, 65] helloRing).1
      = some 5 ∧
    (get_command sampleConfig sampleKeys (List.replicate 8 255) 4 [27, 91, 65]
      helloRing).2.command = [104, 101, 108, 108, 111, 0, 0, 0] ∧
    (get_command sampleConfig sampleKeys (List.replicate 8 255) 4 [27, 91, 65]
      helloRing).2.command.getD 4 0 ≠ (List.replicate 8 255).getD 4 0 ∧
    (get_command sampleConfig sampleKeys (List.replicate 8 255) 4 [27, 91, 65]
      helloRing).2.numRead > 4 - 1 := by
  decide

/-- C20, at an input where the code departs from it: with capacity `len = 2`, a buffer whose
bytes are not NUL and the one input byte `a`, the loop of `get_command` ends because `numRead`
has reached `len - 1`; `get_command` returns 1 without storing a terminator, and `command[1]` is
still the byte that was there, not NUL. -/
theorem get_command_full_buffer_unterminated :
    (get_command sampleConfig sampleKeys [255, 255] 2 [97] sampleInit).1 = some 1 ∧
    (get_command sampleConfig sampleKeys [255, 255] 2 [97] sampleInit).2.command = [97, 255] ∧
    (get_command sampleConfig sampleKeys [255, 255] 2 [97] sampleInit).2.command.getD 1 0
      ≠ 0 := by
  decide

end Rtdsr
